import Mathlib

/-
  Verification development for the opentsdb_mqtt_exporter transformation
  and override-resolution engine (src/main.py).

  Python values are modelled by the inductive type `J`; Python dicts are
  insertion-ordered association lists whose key lookup uses Python's `==`
  (numeric cross-type equality between bool/int/float).  Floats are
  modelled as rationals; the non-finite floats (inf, -inf, nan) are lumped
  into one constructor `J.nonfinite`, which no theorem below inspects.
-/

inductive J : Type where
  | null : J
  | bool (b : Bool) : J
  | int (n : Int) : J
  | flt (q : ℚ) : J
  | nonfinite : J
  | str (s : String) : J
  | dict (kvs : List (J × J)) : J
  | arr (xs : List J) : J
  deriving BEq, Repr

/-- The numeric view a Python `bool`/`int`/`float` presents to `==`. -/
def numOf : J → Option ℚ
  | .bool b => some (if b then 1 else 0)
  | .int n => some (n : ℚ)
  | .flt q => some q
  | _ => none

/-- The equality class a hashable Python value falls into: `None`, the
non-finite singleton, a string, or a number (bool/int/float compare by
numeric value).  Containers are unhashable and have no key view. -/
inductive KeyV : Type where
  | nullv : KeyV
  | nanv : KeyV
  | strv (s : String) : KeyV
  | numv (q : ℚ) : KeyV
  deriving DecidableEq

def keyView : J → Option KeyV
  | .null => some .nullv
  | .nonfinite => some .nanv
  | .str s => some (.strv s)
  | .bool b => some (.numv (if b then 1 else 0))
  | .int n => some (.numv (n : ℚ))
  | .flt q => some (.numv q)
  | _ => none

/-- Python `==` restricted to hashable values (the only ones that can be
dict keys): numeric types compare by value across bool/int/float,
strings and the singletons structurally.  Containers are unhashable in
Python and never occur as keys. -/
def pyEq (a b : J) : Bool :=
  match keyView a, keyView b with
  | some x, some y => decide (x = y)
  | _, _ => false

/-- Insertion-ordered Python dict. -/
abbrev PyDict := List (J × J)

def pyContains (d : PyDict) (k : J) : Bool := d.any (fun p => pyEq p.1 k)

def pyGet? (d : PyDict) (k : J) : Option J :=
  (d.find? (fun p => pyEq p.1 k)).map Prod.snd

/-- `d.get(k, dflt)`. -/
def pyGetD (d : PyDict) (k : J) (dflt : J) : J :=
  match pyGet? d k with
  | some v => v
  | none => dflt

/-- `d[k] = v`: replace the value at the first matching key (keeping the
stored key object and its position), else append. -/
def pySet : PyDict → J → J → PyDict
  | [], k, v => [(k, v)]
  | p :: ps, k, v => if pyEq p.1 k then (p.1, v) :: ps else p :: pySet ps k v

/-- `d.update(e)`: set every pair of `e` into `d`, in order. -/
def pyUpdate (d e : PyDict) : PyDict := e.foldl (fun acc p => pySet acc p.1 p.2) d

/-- `d.pop(k, dflt)`: value at the first matching key (or the default)
together with the dict with that entry removed. -/
def pyPop : PyDict → J → J → J × PyDict
  | [], _, dflt => (dflt, [])
  | p :: ps, k, dflt =>
    if pyEq p.1 k then (p.2, ps)
    else
      let r := pyPop ps k dflt
      (r.1, p :: r.2)

/-- Keys of the dict are pairwise distinct under Python `==`. -/
def pyNodup : PyDict → Bool
  | [] => true
  | p :: ps => !(pyContains ps p.1) && pyNodup ps

/-- Decimal rendering of `n / d` (in lowest terms): used by `pyStrFlt`.
If no power of ten up to `10 ^ 40` is divisible by `d` (impossible for
actual floats) a fraction marker is produced. -/
def pyStrFltNat (n d : ℕ) : String :=
  if d == 1 then toString n ++ ".0"
  else
    match (List.range 41).find? (fun k => 10 ^ k % d == 0) with
    | some k =>
      let digits := n * 10 ^ k / d
      let s := (toString digits).toList
      let s := if s.length ≤ k then List.replicate (k + 1 - s.length) '0' ++ s else s
      String.mk (s.take (s.length - k)) ++ "." ++ String.mk (s.drop (s.length - k))
    | none => toString n ++ "r" ++ toString d

/-- Python `str` of a float.  Every float is a dyadic rational, so its
exact decimal expansion terminates; `str` prints the shortest exact
form, with `.0` appended to integral values. -/
def pyStrFlt (q : ℚ) : String :=
  if q < 0 then "-" ++ pyStrFltNat q.num.natAbs q.den
  else pyStrFltNat q.num.natAbs q.den

mutual

/-- Python `repr` (structural cases; strings quoted, containers
rendered elementwise).  String escaping inside `repr` is not modelled;
no theorem below depends on container rendering. -/
def pyRepr : J → String
  | .null => "None"
  | .bool true => "True"
  | .bool false => "False"
  | .int n => toString n
  | .flt q => pyStrFlt q
  | .nonfinite => "inf"
  | .str s => "'" ++ s ++ "'"
  | .dict kvs => "\x7b" ++ String.intercalate ", " (pyReprPairs kvs) ++ "\x7d"
  | .arr xs => "[" ++ String.intercalate ", " (pyReprList xs) ++ "]"

def pyReprPairs : List (J × J) → List String
  | [] => []
  | (k, v) :: ps => (pyRepr k ++ ": " ++ pyRepr v) :: pyReprPairs ps

def pyReprList : List J → List String
  | [] => []
  | x :: xs => pyRepr x :: pyReprList xs

end

/-- Python `str`. -/
def pyStr : J → String
  | .str s => s
  | v => pyRepr v

/-! ### String helpers and Python numeric parsing -/

/-- Python slicing `s[:n]` by code points. -/
def strTake (s : String) (n : ℕ) : String := String.mk (s.toList.take n)

/-- Replace every space with an underscore (`.replace(" ", "_")` for the
single-character pattern used by the source). -/
def underscore (s : String) : String :=
  String.mk (s.toList.map (fun c => if c == ' ' then '_' else c))

/-- `s.startswith(t)`. -/
def startsWithStr (s t : String) : Bool := s.toList.take t.toList.length == t.toList

/-- `s.endswith(t)`. -/
def endsWithStr (s t : String) : Bool :=
  s.toList.reverse.take t.toList.length == t.toList.reverse

/-- `s.lower()` (ASCII). -/
def lowerStr (s : String) : String := String.mk (s.toList.map Char.toLower)

/-- Split a char list at every occurrence of `c` (Python `s.split(c)`;
the empty string yields one empty piece). -/
def splitOnChar (c : Char) : List Char → List (List Char)
  | [] => [[]]
  | x :: xs =>
    let r := splitOnChar c xs
    if x == c then [] :: r
    else
      match r with
      | h :: t => (x :: h) :: t
      | [] => [[x]]

/-- `s.split("/")` as strings. -/
def splitSlash (s : String) : List String := (splitOnChar '/' s.toList).map String.mk

/-- Drop characters satisfying `p` from both ends (Python `str.strip`). -/
def stripWhile (p : Char → Bool) (s : String) : String :=
  String.mk (((s.toList.dropWhile p).reverse.dropWhile p).reverse)

/-- ASCII whitespace stripped by Python's `str.strip()` / `int()` / `float()`. -/
def pyWs (c : Char) : Bool :=
  c == ' ' || c == '\t' || c == '\n' || c == '\r' || c == '\x0b' || c == '\x0c'

/-- A valid CPython digit group: nonempty digits with single underscores
strictly between digits (`\d(_?\d)*`). -/
def okUDigits (l : List Char) : Bool :=
  !l.isEmpty && l.all (fun c => c.isDigit || c == '_') &&
  (match l.head? with | some c => c.isDigit | none => false) &&
  (match l.getLast? with | some c => c.isDigit | none => false) &&
  (l.zip l.tail).all (fun p => !(p.1 == '_' && p.2 == '_'))

def digitsVal (l : List Char) : ℕ := l.foldl (fun a c => a * 10 + (c.toNat - 48)) 0

/-- Sign plus digit group (the shape accepted by `int()` after stripping,
and by a float exponent). -/
def pyIntOfChars (l : List Char) : Option ℤ :=
  match l with
  | '+' :: rest => if okUDigits rest then some (digitsVal (rest.filter Char.isDigit) : ℤ) else none
  | '-' :: rest => if okUDigits rest then some (-(digitsVal (rest.filter Char.isDigit) : ℤ)) else none
  | rest => if okUDigits rest then some (digitsVal (rest.filter Char.isDigit) : ℤ) else none

/-- Python `int(s)` on an ASCII string. -/
def pyInt? (s : String) : Option ℤ := pyIntOfChars (stripWhile pyWs s).toList

/-- Split a char list at the first character satisfying `p`; the second
component is the remainder after that character, if any. -/
def breakAt (p : Char → Bool) : List Char → List Char × Option (List Char)
  | [] => ([], none)
  | c :: cs =>
    if p c then ([], some cs)
    else
      let r := breakAt p cs
      (c :: r.1, r.2)

/-- Unsigned finite part of Python `float(s)`:
`digits [. digits] [(e|E) [sign] digits]`, underscores allowed inside
each digit group. -/
def pyFloatFin (l : List Char) : Option ℚ :=
  let me := breakAt (fun c => c == 'e' || c == 'E') l
  let expVal : Option ℤ :=
    match me.2 with
    | none => some 0
    | some ed => pyIntOfChars ed
  match expVal with
  | none => none
  | some e =>
    let mi := breakAt (fun c => c == '.') me.1
    let ip := mi.1
    let fp := (mi.2).getD []
    if (okUDigits ip || ip.isEmpty) && (okUDigits fp || fp.isEmpty) &&
        !(ip.isEmpty && fp.isEmpty) then
      let fd := fp.filter Char.isDigit
      some ((digitsVal (ip.filter Char.isDigit) + (digitsVal fd : ℚ) / 10 ^ fd.length) *
        (10 : ℚ) ^ e)
    else none

/-- Python `float(s)` on an ASCII string: either a finite value or a
non-finite one (`inf` / `infinity` / `nan`, case-insensitive). -/
def pyFloat? (s : String) : Option J :=
  let l := (stripWhile pyWs s).toList
  let sb : ℚ × List Char :=
    match l with
    | '+' :: rest => (1, rest)
    | '-' :: rest => (-1, rest)
    | rest => (1, rest)
  let low := String.mk (sb.2.map Char.toLower)
  if low == "inf" || low == "infinity" || low == "nan" then some J.nonfinite
  else
    match pyFloatFin sb.2 with
    | some q => some (J.flt (sb.1 * q))
    | none => none

/-! ### A model of `json.loads` (fueled recursive-descent parser) -/

def jsonWsChar (c : Char) : Bool := c == ' ' || c == '\t' || c == '\n' || c == '\r'

def skipWs (l : List Char) : List Char := l.dropWhile jsonWsChar

def hexVal (c : Char) : Option ℕ :=
  if c.isDigit then some (c.toNat - 48)
  else if 'a' ≤ c && c ≤ 'f' then some (c.toNat - 87)
  else if 'A' ≤ c && c ≤ 'F' then some (c.toNat - 55)
  else none

/-- Strict JSON number: `-? (0 | [1-9][0-9]*) (. [0-9]+)? ((e|E) sign? [0-9]+)?`;
an integer literal yields `J.int`, anything with a fraction or exponent
yields `J.flt`. -/
def jsonNum (l : List Char) : Option (J × List Char) :=
  let sn : Bool × List Char := match l with | '-' :: r => (true, r) | r => (false, r)
  match sn.2 with
  | [] => none
  | c :: _ =>
    if !c.isDigit then none
    else
      let ip := if c == '0' then ['0'] else sn.2.takeWhile Char.isDigit
      let r₁ := sn.2.drop ip.length
      let fr : List Char × List Char :=
        match r₁ with
        | '.' :: r => (r.takeWhile Char.isDigit, r.drop (r.takeWhile Char.isDigit).length)
        | r => ([], r)
      if (match r₁ with | '.' :: _ => fr.1.isEmpty | _ => false) then none
      else
        let r₂ := fr.2
        let ex : Option ℤ × List Char :=
          match r₂ with
          | 'e' :: r => match pyIntOfChars (r.takeWhile (fun ch => ch.isDigit || ch == '+' || ch == '-')) with
            | some v => (some v, r.drop (r.takeWhile (fun ch => ch.isDigit || ch == '+' || ch == '-')).length)
            | none => (none, r₂)
          | 'E' :: r => match pyIntOfChars (r.takeWhile (fun ch => ch.isDigit || ch == '+' || ch == '-')) with
            | some v => (some v, r.drop (r.takeWhile (fun ch => ch.isDigit || ch == '+' || ch == '-')).length)
            | none => (none, r₂)
          | r => (some 0, r)
        match ex.1 with
        | none => none
        | some e =>
          let hasFrac := match r₁ with | '.' :: _ => true | _ => false
          let hasExp := match r₂ with | 'e' :: _ => true | 'E' :: _ => true | _ => false
          let mag : ℚ := (digitsVal ip + (digitsVal fr.1 : ℚ) / 10 ^ fr.1.length) * (10 : ℚ) ^ e
          let v : J :=
            if hasFrac || hasExp then J.flt (if sn.1 then -mag else mag)
            else J.int (if sn.1 then -(digitsVal ip : ℤ) else (digitsVal ip : ℤ))
          some (v, ex.2)

mutual

/-- One JSON value (leading whitespace allowed), returning the rest of
the input.  `NaN`/`Infinity`/`-Infinity` are accepted, as by Python's
`json.loads`. -/
def jsonVal : ℕ → List Char → Option (J × List Char)
  | 0, _ => none
  | fuel + 1, l =>
    match skipWs l with
    | 'n' :: 'u' :: 'l' :: 'l' :: r => some (J.null, r)
    | 't' :: 'r' :: 'u' :: 'e' :: r => some (J.bool true, r)
    | 'f' :: 'a' :: 'l' :: 's' :: 'e' :: r => some (J.bool false, r)
    | 'N' :: 'a' :: 'N' :: r => some (J.nonfinite, r)
    | 'I' :: 'n' :: 'f' :: 'i' :: 'n' :: 'i' :: 't' :: 'y' :: r => some (J.nonfinite, r)
    | '-' :: 'I' :: 'n' :: 'f' :: 'i' :: 'n' :: 'i' :: 't' :: 'y' :: r => some (J.nonfinite, r)
    | '"' :: r =>
      match jsonStr fuel [] r with
      | some (s, r') => some (J.str s, r')
      | none => none
    | '[' :: r =>
      match skipWs r with
      | ']' :: r' => some (J.arr [], r')
      | r' =>
        match jsonItems fuel r' with
        | some (xs, r'') => some (J.arr xs, r'')
        | none => none
    | '\x7b' :: r =>
      match skipWs r with
      | '\x7d' :: r' => some (J.dict [], r')
      | r' =>
        match jsonMembers fuel r' with
        | some (kvs, r'') => some (J.dict kvs, r'')
        | none => none
    | l' => jsonNum l'

/-- Body of a JSON string after the opening quote; `acc` holds the
characters read so far, in reverse. -/
def jsonStr : ℕ → List Char → List Char → Option (String × List Char)
  | 0, _, _ => none
  | _, _, [] => none
  | _, acc, '"' :: r => some (String.mk acc.reverse, r)
  | fuel + 1, acc, '\\' :: r =>
    match r with
    | '"' :: r' => jsonStr fuel ('"' :: acc) r'
    | '\\' :: r' => jsonStr fuel ('\\' :: acc) r'
    | '/' :: r' => jsonStr fuel ('/' :: acc) r'
    | 'b' :: r' => jsonStr fuel ('\x08' :: acc) r'
    | 'f' :: r' => jsonStr fuel ('\x0c' :: acc) r'
    | 'n' :: r' => jsonStr fuel ('\n' :: acc) r'
    | 'r' :: r' => jsonStr fuel ('\r' :: acc) r'
    | 't' :: r' => jsonStr fuel ('\t' :: acc) r'
    | 'u' :: a :: b :: c :: d :: r' =>
      match hexVal a, hexVal b, hexVal c, hexVal d with
      | some x, some y, some z, some w =>
        jsonStr fuel (Char.ofNat (((x * 16 + y) * 16 + z) * 16 + w) :: acc) r'
      | _, _, _, _ => none
    | _ => none
  | fuel + 1, acc, c :: r => if c.toNat < 32 then none else jsonStr fuel (c :: acc) r

/-- Comma-separated array items, ending at `]`. -/
def jsonItems : ℕ → List Char → Option (List J × List Char)
  | 0, _ => none
  | fuel + 1, l =>
    match jsonVal fuel l with
    | none => none
    | some (v, r) =>
      match skipWs r with
      | ',' :: r' =>
        match jsonItems fuel r' with
        | some (xs, r'') => some (v :: xs, r'')
        | none => none
      | ']' :: r' => some ([v], r')
      | _ => none

/-- Comma-separated `"key": value` members, ending at the closing brace. -/
def jsonMembers : ℕ → List Char → Option (List (J × J) × List Char)
  | 0, _ => none
  | fuel + 1, l =>
    match skipWs l with
    | '"' :: r =>
      match jsonStr fuel [] r with
      | none => none
      | some (k, r') =>
        match skipWs r' with
        | ':' :: r'' =>
          match jsonVal fuel r'' with
          | none => none
          | some (v, r₃) =>
            match skipWs r₃ with
            | ',' :: r₄ =>
              match jsonMembers fuel r₄ with
              | some (kvs, r₅) => some ((J.str k, v) :: kvs, r₅)
              | none => none
            | '\x7d' :: r₄ => some ([(J.str k, v)], r₄)
            | _ => none
        | _ => none
    | _ => none

end

/-- Python `json.loads` on an ASCII document: parse one value and
require only whitespace to remain. -/
def jsonLoads (s : String) : Option J :=
  match jsonVal (2 * s.length + 16) s.toList with
  | some (v, r) => if (skipWs r).isEmpty then some v else none
  | none => none

/-! ### Topic matching and specificity ranking -/

/-- Modelled from the spec: MQTT wildcard matching of a subscription
against a concrete topic, performed in the source by the external
collaborator `paho.mqtt.client.topic_matches_sub` (whose code is not
part of this repository).  Spec 4.1: "single-level wildcard matches
exactly one `/`-delimited segment; multi-level wildcard matches the
remainder of the topic, only at trailing position". -/
def segsMatch : List String → List String → Bool
  | ["#"], _ => true
  | [], [] => true
  | s :: ss, t :: ts => (s == "+" || s == t) && segsMatch ss ts
  | _, _ => false

/-- Modelled from the spec: `topic_matches_sub(sub, topic)`. -/
def topic_matches_sub (sub topic : String) : Bool :=
  segsMatch (splitSlash sub) (splitSlash topic)

/-- The specificity heuristic of `sort_subs_by_specificity`
(src/main.py lines 166-173): sum over character positions of
`(index+1)` weighted 1 for a literal, 0.6 for `+`, 0.5 for `#`. -/
def specificity (sub : String) : ℚ :=
  (sub.toList.enum.map (fun p =>
    (if p.2 == '+' then (6 : ℚ) / 10 else if p.2 == '#' then (5 : ℚ) / 10 else 1) *
      (p.1 + 1))).sum

/-- Stable insertion of a scored pair: a new pair goes after every pair
of less-or-equal score (Python's `list.sort` is stable). -/
def insertPair (x : ℚ × String) : List (ℚ × String) → List (ℚ × String)
  | [] => [x]
  | y :: ys => if x.1 < y.1 then x :: y :: ys else y :: insertPair x ys

/-- Stable sort of scored pairs by score, ascending. -/
def sortPairs (l : List (ℚ × String)) : List (ℚ × String) :=
  l.foldl (fun acc x => insertPair x acc) []

/-- `sort_subs_by_specificity` (src/main.py lines 152-177): collect the
`(specificity, sub)` pairs of the matching subscriptions in input
order, sort them stably by specificity, and return the subscriptions. -/
def sort_subs_by_specificity (topic : String) (subs : List String) : List String :=
  let ms := subs.foldl
    (fun acc sub =>
      if topic_matches_sub sub topic then acc ++ [(specificity sub, sub)] else acc) []
  (sortPairs ms).map Prod.snd

/-- Stable insertion by a score function on the elements themselves
(used to phrase claim C2's characterisation). -/
def insertScored (f : String → ℚ) (x : String) : List String → List String
  | [] => [x]
  | y :: ys => if f x < f y then x :: y :: ys else y :: insertScored f x ys

def stableSortByScore (f : String → ℚ) (l : List String) : List String :=
  l.foldl (fun acc x => insertScored f x acc) []

/-- Claim C2's and C1's description of the ranking: exactly the matching
patterns, stably sorted by ascending specificity (ties keep input
order). -/
def rankedBySpecificity (topic : String) (subs : List String) : List String :=
  stableSortByScore specificity (subs.filter (fun s => topic_matches_sub s topic))

/-! ### Override resolution -/

/-- Resolution key: a base topic string or a `(topic, subvalue)` pair. -/
inductive TKey : Type where
  | base (t : String) : TKey
  | sub (t v : String) : TKey
  deriving Repr, DecidableEq

/-- Override pattern table: pattern string to spec dict or the explicit
null sentinel (insertion ordered). -/
abbrev Table := List (String × Option PyDict)

def isNull : J → Bool
  | J.null => true
  | _ => false

/-- `override.get(s, {})`: the entry at a pattern string, an absent key
giving the empty dict. -/
def tblGet (tbl : Table) (s : String) : Option PyDict :=
  match tbl.find? (fun p => p.1 == s) with
  | some p => p.2
  | none => some []

/-- One iteration of the base-topic fold of `_get_override`
(src/main.py lines 241-265) on the accumulator
`(output_override, output_extra_tags, output_value_replacement)`.
A popped `extra_tags`/`value_replacement` that is neither a dict nor
null would raise in Python (`dict.update` of a non-mapping); the model
treats it as an empty update and the well-formedness predicate excludes
it. -/
def getOverrideStep (tbl : Table) (acc : PyDict × PyDict × PyDict) (sub : String) :
    PyDict × PyDict × PyDict :=
  match tblGet tbl sub with
  | none => ([], [], [])
  | some sub_override_raw =>
    let pe := pyPop sub_override_raw (J.str "extra_tags") (J.dict [])
    let output_extra_tags :=
      match pe.1 with
      | J.null => []
      | J.dict d => pyUpdate acc.2.1 d
      | _ => acc.2.1
    let pv := pyPop pe.2 (J.str "value_replacement") (J.dict [])
    let output_value_replacement :=
      match pv.1 with
      | J.null => []
      | J.dict d => pyUpdate acc.2.2 d
      | _ => acc.2.2
    (pyUpdate acc.1 pv.2, output_extra_tags, output_value_replacement)

/-- Lines 267-273 of src/main.py: reinstate nonempty sub-maps and drop
the entries whose value is null. -/
def getOverrideFinish (acc : PyDict × PyDict × PyDict) : PyDict :=
  let o := if acc.2.1.length > 0 then pySet acc.1 (J.str "extra_tags") (J.dict acc.2.1) else acc.1
  let o := if acc.2.2.length > 0 then pySet o (J.str "value_replacement") (J.dict acc.2.2) else o
  o.filter (fun p => !(isNull p.2))

/-- `_get_override` on a base topic string (src/main.py lines 237-273):
fold the matching patterns in ascending specificity over an empty
accumulator.  This branch copies each entry (`{**sub_override_raw}`)
before popping, so the table is not modified. -/
def getOverrideBase (tbl : Table) (topic : String) : PyDict :=
  let subs := sort_subs_by_specificity topic (tbl.map Prod.fst)
  getOverrideFinish (subs.foldl (getOverrideStep tbl) ([], [], []))

/-- Replace the stored entry of `key` (the in-place mutation of the dict
object held by the table). -/
def tblSetEntry (tbl : Table) (key : String) (entry : PyDict) : Table :=
  tbl.map (fun p => if p.1 == key then (p.1, some entry) else p)

/-- `_get_override` on an exact `(topic, subvalue)` pair
(src/main.py lines 208-235 plus the shared tail).  Unlike the base
branch, the source pops `extra_tags` and `value_replacement` directly
off the dict stored in the table (no copy is taken), so the possibly
mutated table is returned alongside the result. -/
def getOverrideSub (tbl : Table) (topic sub : String) : PyDict × Table :=
  let base := getOverrideBase tbl topic
  let pe := pyPop base (J.str "extra_tags") (J.dict [])
  let pv := pyPop pe.2 (J.str "value_replacement") (J.dict [])
  let baseET : PyDict := match pe.1 with | J.dict d => d | _ => []
  let baseVR : PyDict := match pv.1 with | J.dict d => d | _ => []
  let key := topic ++ ":" ++ sub
  match tbl.find? (fun p => p.1 == key) with
  | some (_, none) => ([], tbl)
  | entry? =>
    let entry : PyDict := match entry? with | some (_, some e) => e | _ => []
    let stored : Bool := match entry? with | some (_, some _) => true | _ => false
    let pse := pyPop entry (J.str "extra_tags") (J.dict [])
    let output_extra_tags :=
      match pse.1 with
      | J.null => []
      | J.dict d => pyUpdate baseET d
      | _ => baseET
    let psv := pyPop pse.2 (J.str "value_replacement") (J.dict [])
    let output_value_replacement :=
      match psv.1 with
      | J.null => []
      | J.dict d => pyUpdate baseVR d
      | _ => baseVR
    let output_override := pyUpdate pv.2 psv.2
    (getOverrideFinish (output_override, output_extra_tags, output_value_replacement),
      if stored then tblSetEntry tbl key psv.2 else tbl)

/-- `get_topic_override_config(topic, override, disable_cache=True)`
(src/main.py lines 180-289), together with the table state after the
call: the tuple branch mutates the stored entry. -/
def get_topic_override_config (key : TKey) (tbl : Table) : PyDict × Table :=
  match key with
  | .base t => (getOverrideBase tbl t, tbl)
  | .sub t v => getOverrideSub tbl t v

/-! ### Structural topic pattern and tag extraction -/

/-- Groups captured by TOPIC_MATCHER. -/
structure TopicGroups : Type where
  app : String
  context : String
  thing : String
  property : Option String
  deriving Repr, DecidableEq

/-- A character of the class `[ \w-]` (ASCII model of `\w`). -/
def validSegChar (c : Char) : Bool :=
  c == ' ' || c == '-' || c == '_' || c.isAlphanum

/-- A valid single-segment group (`[ \w-]+`). -/
def validSeg (s : String) : Bool := !s.isEmpty && s.toList.all validSegChar

/-- A context chunk between slashes (may be empty: `[ \w\x2d/]+`, the
context class, admits consecutive slashes). -/
def validCtxSeg (s : String) : Bool := s.toList.all validSegChar

/-- The structural pattern TOPIC_MATCHER (src/main.py lines 17-19):
`^dt/(?P<app>[ \w-]+)/(?P<context>[ \w\x2d/]+)/(?P<thing>[ \w-]+)/(?P<property>[ \w-]+)?$`.
The decomposition into groups is forced: `app` is the second segment,
`thing` the second-to-last, `property` the (possibly absent) last, and
`context` everything between. -/
def topicMeta (topic : String) : Option TopicGroups :=
  match splitSlash topic with
  | "dt" :: rest =>
    match rest.getLast? with
    | none => none
    | some last =>
      let pro : Option String := if last == "" then none else some last
      match rest.dropLast with
      | [] => none
      | app :: rest' =>
        match rest'.getLast? with
        | none => none
        | some thing =>
          let ctxSegs := rest'.dropLast
          let context := String.intercalate "/" ctxSegs
          if validSeg app && validSeg thing && !ctxSegs.isEmpty && !context.isEmpty &&
              ctxSegs.all validCtxSeg &&
              (match pro with | some p => validSeg p | none => true) then
            some ⟨app, context, thing, pro⟩
          else none
  | _ => none

/-- `extract_context_tags` (src/main.py lines 731-751) with the default
key prefix `"context"`.  A non-string context would raise in Python
(`"/" in context`); the model yields no tags there and well-formedness
excludes it. -/
def extract_context_tags : Option J → PyDict
  | none => []
  | some (J.str s) =>
    if s.toList.contains '/' then
      (splitSlash s).enum.map (fun p => (J.str ("context_" ++ toString p.1), J.str p.2))
    else [(J.str "context_0", J.str s)]
  | some _ => []

/-- The named group of the structural match, for the keys used by
`generate_tags`. -/
def groupOf (m : TopicGroups) : String → String
  | "app" => m.app
  | "context" => m.context
  | "thing" => m.thing
  | _ => ""

/-- `generate_tags` (src/main.py lines 649-675). -/
def generate_tags (keys : List String) (override_dict : PyDict)
    (topic_meta : Option TopicGroups) : PyDict :=
  match topic_meta with
  | none =>
    keys.filterMap (fun key =>
      match pyGet? override_dict (J.str key) with
      | some J.null => none
      | some v => some (J.str key, v)
      | none => none)
  | some m =>
    keys.map (fun key =>
      (J.str key,
        match pyGet? override_dict (J.str key) with
        | some J.null => J.str (groupOf m key)
        | some v => v
        | none => J.str (groupOf m key)))

/-- `extract_tags` (src/main.py lines 678-728).  Returns `none` exactly
where the source raises: a non-tuple topic whose structural match has an
absent `property` group makes `.replace` be called on `None`.  An
`extra_tags` override value that is not a dict would raise
(`None.items()`); the model ignores it and well-formedness excludes it.
The four tag groups of the source's dict literal have pairwise distinct
keys, so the literal is their concatenation. -/
def extract_tags (topic : TKey) (topic_override : PyDict) : Option PyDict :=
  let rawTopic := match topic with | .base t => t | .sub t _ => t
  let topic_meta := topicMeta rawTopic
  let generated_tags := generate_tags ["app", "context", "thing"] topic_override topic_meta
  let property_tag? : Option String :=
    match topic_meta with
    | none => some (underscore ((splitSlash rawTopic).getLastD ""))
    | some m =>
      match topic with
      | .sub _ v =>
        some (underscore ((match m.property with | some p => p | none => "None") ++ "_" ++ v))
      | .base _ =>
        match m.property with
        | some p => some (underscore p)
        | none => none
  match property_tag? with
  | none => none
  | some property_tag =>
    let ctxArg : Option J :=
      match pyGet? topic_override (J.str "context") with
      | some J.null => none
      | some v => some v
      | none => match topic_meta with | some m => some (J.str m.context) | none => none
    let tags : PyDict :=
      [(J.str "topic",
         J.str (match topic with | .base t => t | .sub t v => t ++ ":" ++ v)),
       (J.str "property", pyGetD topic_override (J.str "property") (J.str property_tag))]
      ++ generated_tags ++ extract_context_tags ctxArg
    let tags :=
      match pyGet? topic_override (J.str "extra_tags") with
      | some (J.dict d) => pyUpdate tags (d.filter (fun p => !(isNull p.2)))
      | _ => tags
    let tags :=
      match pyGet? topic_override (J.str "metric_prefix") with
      | some v => pySet tags (J.str "metric_prefix") v
      | none => tags
    some tags

/-! ### Value normalization -/

/-- `normalize_timestamp` (src/main.py lines 478-506): numbers pass
through (including bools, a subclass of `int`), strings are parsed as
int then float, everything else becomes `None`. -/
def normalize_timestamp (v : J) : J :=
  match v with
  | .bool _ | .int _ | .flt _ | .nonfinite => v
  | .str s =>
    (match pyInt? s with
     | some n => J.int n
     | none =>
       match pyFloat? s with
       | some f => f
       | none => J.null)
  | _ => J.null

/-- Python `int()` truncation (toward zero) of a rational. -/
def ratTrunc (q : ℚ) : ℤ := if q < 0 then -((-q).floor) else q.floor

/-- `find_value_replacement` (src/main.py lines 550-594): probe the
replacement dict with the raw value, its `str` form and, for numbers,
the paired int/float and stringified forms.  `J.null` models Python's
`None` (both "no hit" and a stored `None`, indistinguishable to the
caller).  `isinstance(value, (int, float))` is true for bools, so a bool
probes like an int; the source's final `isinstance(value, bool)` lookup
repeats the first numeric probe and is unreachable.  The int-conversion
probes of a non-finite float would raise in Python and are left out. -/
def find_value_replacement (value : J) (value_replacement_dict : PyDict)
    (max_str_len : ℕ) : J :=
  if value_replacement_dict.length > 0 then
    match value with
    | .str s =>
      if pyContains value_replacement_dict (J.str (strTake s max_str_len)) then
        pyGetD value_replacement_dict (J.str (strTake s max_str_len)) J.null
      else J.null
    | .int n =>
      if pyContains value_replacement_dict value then
        pyGetD value_replacement_dict value J.null
      else if pyContains value_replacement_dict (J.str (pyStr value)) then
        pyGetD value_replacement_dict (J.str (pyStr value)) J.null
      else if pyContains value_replacement_dict (J.flt (n : ℚ)) then
        pyGetD value_replacement_dict (J.flt (n : ℚ)) J.null
      else if pyContains value_replacement_dict (J.str (pyStrFlt (n : ℚ))) then
        pyGetD value_replacement_dict (J.str (pyStrFlt (n : ℚ))) J.null
      else J.null
    | .flt q =>
      if pyContains value_replacement_dict value then
        pyGetD value_replacement_dict value J.null
      else if pyContains value_replacement_dict (J.str (pyStr value)) then
        pyGetD value_replacement_dict (J.str (pyStr value)) J.null
      else if q.den == 1 && pyContains value_replacement_dict (J.int q.num) then
        pyGetD value_replacement_dict (J.int q.num) J.null
      else if q.den == 1 && pyContains value_replacement_dict (J.str (toString q.num)) then
        pyGetD value_replacement_dict (J.str (toString q.num)) J.null
      else J.null
    | .bool b =>
      if pyContains value_replacement_dict value then
        pyGetD value_replacement_dict value J.null
      else if pyContains value_replacement_dict (J.str (pyStr value)) then
        pyGetD value_replacement_dict (J.str (pyStr value)) J.null
      else if pyContains value_replacement_dict (J.flt (if b then 1 else 0)) then
        pyGetD value_replacement_dict (J.flt (if b then 1 else 0)) J.null
      else if pyContains value_replacement_dict (J.str (pyStrFlt (if b then 1 else 0))) then
        pyGetD value_replacement_dict (J.str (pyStrFlt (if b then 1 else 0))) J.null
      else J.null
    | .nonfinite =>
      if pyContains value_replacement_dict value then
        pyGetD value_replacement_dict value J.null
      else if pyContains value_replacement_dict (J.str (pyStr value)) then
        pyGetD value_replacement_dict (J.str (pyStr value)) J.null
      else J.null
    | _ => J.null
  else J.null

/-- `normalize_value` (src/main.py lines 597-646), with the source's
single self-recursion (taken only after a string is coerced to a number
without a replacement hit) made structural on a fuel argument;
`normalize_value` below supplies fuel 2, which the recursion never
exhausts since the recursive call's numeric argument returns without
recursing. -/
def vrDict (topic_override : PyDict) : PyDict :=
  match pyGetD topic_override (J.str "value_replacement") (J.dict []) with
  | J.dict d => d
  | _ => []

def normalizeValueFuel : ℕ → J → PyDict → ℕ → J
  | 0, _, _, _ => J.int (-1)
  | fuel + 1, value, topic_override, max_str_len =>
    let value_replacement_dict : PyDict := vrDict topic_override
    let fr :=
      if value_replacement_dict.length > 0 then
        find_value_replacement value value_replacement_dict max_str_len
      else J.null
    let cont : J → Bool → J := fun v was_replaced =>
      match v with
      | .int _ | .flt _ | .bool _ | .nonfinite => v
      | .str s =>
        (match pyInt? s with
         | some n =>
           if was_replaced then J.int n
           else normalizeValueFuel fuel (J.int n) topic_override max_str_len
         | none =>
           match pyFloat? s with
           | some f =>
             if was_replaced then f
             else normalizeValueFuel fuel f topic_override max_str_len
           | none => J.str (strTake s max_str_len))
      | _ => J.int (-1)
    match fr with
    | J.null => cont value false
    | J.dict _ => J.int (-1)
    | J.arr _ => J.int (-1)
    | v => cont v true

def normalize_value (value : J) (topic_override : PyDict) (max_str_len : ℕ) : J :=
  normalizeValueFuel 2 value topic_override max_str_len

/-- Python `isinstance(v, (str, int, float))`: true also for bools (a
subclass of `int`) and non-finite floats. -/
def isStrIntFloat : J → Bool
  | .str _ | .int _ | .flt _ | .bool _ | .nonfinite => true
  | _ => false

/-- `extract_payload_tags_and_value` (src/main.py lines 509-547): pop
the `value` key (default `-1`), turn the remaining scalar-valued,
non-excluded entries into string tags (`timestamp` parsed numerically
instead), and normalize the value.  A non-string key would raise in
Python (`k.lower()`); such entries are skipped here and excluded by
well-formedness.  The source's dead `except ValueError` branch
(reachable only through non-finite float conversion) is not modelled,
so the extracted value is always present. -/
def extract_payload_tags_and_value (payload : J) (tags_exclude : List String)
    (topic_override : PyDict) (max_str_len : ℕ) : PyDict × J :=
  match payload with
  | .dict kvs =>
    let pv := pyPop kvs (J.str "value") (J.int (-1))
    let payload_tags := pv.2.filterMap (fun p =>
      match p.1 with
      | J.str k =>
        if isStrIntFloat p.2 then
          if tags_exclude.contains (lowerStr k) then none
          else if k == "timestamp" then some (J.str k, normalize_timestamp p.2)
          else some (J.str k, J.str (pyStr p.2))
        else none
      | _ => none)
    (payload_tags, normalize_value pv.1 topic_override max_str_len)
  | _ => ([], normalize_value payload topic_override max_str_len)

/-- Lines 472-473 of src/main.py: default the `timestamp` tag to the
truncated arrival time when absent or `None`. -/
def tsFix (tags : PyDict) (timestamp : ℚ) : PyDict :=
  match pyGet? tags (J.str "timestamp") with
  | some J.null | none => pySet tags (J.str "timestamp") (J.int (ratTrunc timestamp))
  | some _ => tags

/-- `extract_tags_and_value` (src/main.py lines 445-475): payload tags
overwritten by topic tags, `timestamp` defaulting to the truncated
arrival time; `none` where `extract_tags` raises. -/
def extract_tags_and_value (topic : TKey) (payload : J) (timestamp : ℚ)
    (topic_override : PyDict) (tags_exclude : List String) (max_str_len : ℕ) :
    Option (PyDict × J) :=
  let pv := extract_payload_tags_and_value payload tags_exclude topic_override max_str_len
  match extract_tags topic topic_override with
  | none => none
  | some tags =>
    some (tsFix (pyUpdate pv.1 tags) timestamp, pv.2)

/-! ### The per-message pipeline (`process_items` on one item) -/

/-- One data point sent to the sink: `tsdb.send(metric, value, **tags)`. -/
structure Reading : Type where
  metric : String
  value : J
  tags : PyDict
  deriving Repr

/-- The fragment loop body of `process_items` (src/main.py lines
395-442): resolve the fragment's override (sub-value fragments
re-resolve against the current table and may mutate it; base fragments
reuse the precomputed base override), extract tags and value, pop
`metric_prefix`, and send.  `none` is returned where nothing is sent:
tag extraction raised, the value is neither number nor string (logged),
or `tsdb.send` raised a duplicate-kwarg error because the tag set
already holds `val` on the string path. -/
def processFragment (tbl : Table) (topic_override : PyDict) (val_topic : TKey)
    (val_payload : J) (timestamp : ℚ) (mpfx : String) (max_str_len : ℕ)
    (tags_exclude : List String) : Option Reading × Table :=
  let ov : PyDict × Table :=
    match val_topic with
    | .sub _ _ => get_topic_override_config val_topic tbl
    | .base _ => (topic_override, tbl)
  match extract_tags_and_value val_topic val_payload timestamp ov.1 tags_exclude max_str_len with
  | none => (none, ov.2)
  | some (tags, value) =>
    let pm := pyPop tags (J.str "metric_prefix") (J.str mpfx)
    let lpfx := pyStr pm.1
    let tags := pm.2
    match value with
    | .int _ | .flt _ | .bool _ | .nonfinite =>
      (some ⟨lpfx ++ pyStr (pyGetD tags (J.str "property") J.null), value, tags⟩, ov.2)
    | .str s =>
      if pyContains tags (J.str "val") then (none, ov.2)
      else
        (some ⟨lpfx ++ pyStr (pyGetD tags (J.str "property") J.null) ++ "_info",
          J.int 1, pySet tags (J.str "val") (J.str s)⟩, ov.2)
    | _ => (none, ov.2)

/-- One iteration of the batch loop of `process_items`
(src/main.py lines 318-442) on a single `(message, timestamp)` item with
`disable_cache=True` (how the test-suite runs it; with the cache the
first resolution of each key computes the same value): strip the topic
and payload, decode JSON when delimited, decompose by shape
(lines 344-393), then emit fragment by fragment, threading the table
through the sub-value resolutions that mutate it. -/
def process_one_message (msgTopic msgPayload : String) (timestamp : ℚ)
    (tbl : Table) (mpfx : String) (max_str_len : ℕ) (tags_exclude : List String) :
    List Reading × Table :=
  let topic := stripWhile (· == '\x00') (stripWhile pyWs msgTopic)
  let payload := stripWhile (· == '\x00') (stripWhile pyWs msgPayload)
  let topic_override := getOverrideBase tbl topic
  let keyName : J → String := fun k => match k with | J.str s => s | other => pyStr other
  let values : List (TKey × J) :=
    if (startsWithStr payload "\x7b" && endsWithStr payload "\x7d") ||
        (startsWithStr payload "[" && endsWithStr payload "]") then
      match jsonLoads payload with
      | none => [(.base topic, J.str payload)]
      | some (J.dict kvs) =>
        (match pyGet? kvs (J.str "values") with
         | some (J.dict vs) =>
           let base_tags := (pyPop kvs (J.str "values") J.null).2
           vs.map (fun p =>
             (TKey.sub topic (keyName p.1),
              match p.2 with
              | J.dict vd => J.dict (pyUpdate base_tags vd)
              | v => J.dict (pySet base_tags (J.str "value") v)))
         | some (J.arr vs) =>
           let base_tags := (pyPop kvs (J.str "values") J.null).2
           vs.map (fun v =>
             (TKey.base topic,
              match v with
              | J.dict vd => J.dict (pyUpdate base_tags vd)
              | v => J.dict (pySet base_tags (J.str "value") v)))
         | _ =>
           match pyGetD topic_override (J.str "json_multi_value") J.null with
           | J.bool true =>
             (kvs.map (fun p =>
               match p.2 with
               | J.arr iv => iv.map (fun x => (TKey.sub topic (keyName p.1), x))
               | v => [(TKey.sub topic (keyName p.1), v)])).flatten
           | _ => [(.base topic, J.dict kvs)])
      | some (J.arr xs) =>
        (match pyGetD topic_override (J.str "json_multi_value") J.null with
         | J.bool true =>
           (xs.map (fun iv =>
             match iv with
             | J.dict ivd => ivd.map (fun p => (TKey.sub topic (keyName p.1), p.2))
             | _ => ([] : List (TKey × J)))).flatten
         | _ => xs.map (fun v => (TKey.base topic, v)))
      | some other => [(.base topic, other)]
    else [(.base topic, J.str payload)]
  values.foldl
    (fun acc v =>
      let r := processFragment acc.2 topic_override v.1 v.2 timestamp mpfx max_str_len tags_exclude
      ((match r.1 with | some rd => acc.1 ++ [rd] | none => acc.1), r.2))
    ([], tbl)

/-! ### Claim-side descriptions of override resolution (C1) -/

/-- Delete a key from a dict (mapping semantics). -/
def pyDel (d : PyDict) (k : J) : PyDict := d.filter (fun p => !(pyEq p.1 k))

/-- Sub-map merge as claim C1 words it: key by key, "a null at an
individual key deletes that key from the accumulated sub-map". -/
def mergeSubMapClaim (acc d : PyDict) : PyDict :=
  d.foldl (fun m p => match p.2 with | J.null => pyDel m p.1 | v => pySet m p.1 v) acc

/-- Structured accumulator of the claim's fold: the scalar fields and
the two sub-maps. -/
structure OvSpecAcc : Type where
  scalars : PyDict
  extraTags : PyDict
  valueRepl : PyDict
  deriving Repr

/-- One step of claim C1's fold, parameterised by the sub-map merge:
the null sentinel resets the whole accumulator; otherwise scalar fields
present in the spec overwrite (an explicitly null scalar clears the
field), and the two sub-maps are merged. -/
def overrideStepWith (merge : PyDict → PyDict → PyDict) (acc : OvSpecAcc)
    (entry : Option PyDict) : OvSpecAcc :=
  match entry with
  | none => ⟨[], [], []⟩
  | some spec =>
    spec.foldl (fun a p =>
      if pyEq p.1 (J.str "extra_tags") then
        match p.2 with
        | J.null => { a with extraTags := [] }
        | J.dict d => { a with extraTags := merge a.extraTags d }
        | _ => a
      else if pyEq p.1 (J.str "value_replacement") then
        match p.2 with
        | J.null => { a with valueRepl := [] }
        | J.dict d => { a with valueRepl := merge a.valueRepl d }
        | _ => a
      else
        match p.2 with
        | J.null => { a with scalars := pyDel a.scalars p.1 }
        | v => { a with scalars := pySet a.scalars p.1 v }) acc

/-- The claim's result assembly: sub-maps that ended up empty are
omitted. -/
def overrideFinishSpec (a : OvSpecAcc) : PyDict :=
  a.scalars ++
    (if a.extraTags.isEmpty then [] else [(J.str "extra_tags", J.dict a.extraTags)]) ++
    (if a.valueRepl.isEmpty then [] else [(J.str "value_replacement", J.dict a.valueRepl)])

/-- Claim C1's description of base-topic resolution, exactly as stated
(null at an individual sub-map key deletes the key). -/
def resolveOverrideClaim (tbl : Table) (topic : String) : PyDict :=
  overrideFinishSpec
    ((rankedBySpecificity topic (tbl.map Prod.fst)).foldl
      (fun a s => overrideStepWith mergeSubMapClaim a (tblGet tbl s)) ⟨[], [], []⟩)

/-- The amended description: identical except that a null at an
individual sub-map key overwrites the accumulated entry with null (the
key stays, and such a sub-map counts as non-empty). -/
def resolveOverrideAmended (tbl : Table) (topic : String) : PyDict :=
  overrideFinishSpec
    ((rankedBySpecificity topic (tbl.map Prod.fst)).foldl
      (fun a s => overrideStepWith pyUpdate a (tblGet tbl s)) ⟨[], [], []⟩)

/-- Equality of dicts as mappings (Python `==` ignores insertion
order). -/
def dictEquiv (a b : PyDict) : Prop := ∀ k : J, pyGet? a k = pyGet? b k

/-! ### Well-formedness of override tables -/

def isDictOrNull : J → Bool
  | J.null => true
  | J.dict _ => true
  | _ => false

/-- A well-formed override spec as Python produces it from YAML: keys
are hashable and pairwise distinct, and the two sub-map fields, when
present, hold a dict or null. -/
def wfSpec (spec : PyDict) : Bool :=
  pyNodup spec && spec.all (fun p => pyEq p.1 p.1) &&
  (match pyGet? spec (J.str "extra_tags") with
   | some v => isDictOrNull v
   | none => true) &&
  (match pyGet? spec (J.str "value_replacement") with
   | some v => isDictOrNull v
   | none => true)

def strNodup : List String → Bool
  | [] => true
  | s :: ss => !(ss.contains s) && strNodup ss

/-- A well-formed override table: distinct pattern keys, well-formed
specs. -/
def wellFormedTable (tbl : Table) : Bool :=
  strNodup (tbl.map Prod.fst) &&
  tbl.all (fun p => match p.2 with | none => true | some spec => wfSpec spec)

/-! ### Concrete inputs used by counterexamples and witnesses -/

/-- A table whose only pattern carries a null at one `extra_tags` key. -/
def tblNullKey : Table := [("a", some [(J.str "extra_tags", J.dict [(J.str "t", J.null)])])]

/-- A table with one exact `topic:subvalue` entry holding `extra_tags`. -/
def tblSubValue : Table := [("a:k", some [(J.str "extra_tags", J.dict [(J.str "t", J.str "v")])])]

/-- Override giving `value_replacement: {"foo": 42}` on the scenario topic. -/
def tblReplNum : Table :=
  [("dt/myapp/room/esp32/temperature",
    some [(J.str "value_replacement", J.dict [(J.str "foo", J.int 42)])])]

/-- Override giving `value_replacement: {"foo": "bar"}` on the scenario topic. -/
def tblReplStr : Table :=
  [("dt/myapp/room/esp32/temperature",
    some [(J.str "value_replacement", J.dict [(J.str "foo", J.str "bar")])])]

set_option maxRecDepth 16000

/-! ### Theorems -/

/-- C5 (code_bug): the claim says override resolution never modifies the
override table, but on the exact `topic:subvalue` form the code pops
`extra_tags` (and `value_replacement`) directly off the dict stored in
the table: after resolving `("a","k")` against
`{"a:k": {"extra_tags": {"t": "v"}}}` the stored entry has become the
empty dict, so the table after the call differs from the table before. -/
theorem c5_table_mutated :
    (get_topic_override_config (.sub "a" "k") tblSubValue).2 = [("a:k", some [])] ∧
    tblSubValue = [("a:k", some [(J.str "extra_tags", J.dict [(J.str "t", J.str "v")])])] ∧
    [("a:k", (some [] : Option PyDict))] ≠ tblSubValue := by
  refine ⟨by rfl, by rfl, ?_⟩
  intro h
  simp [tblSubValue] at h

/-- C4 (code_bug): the claim says resolving the same key twice (cache on
or off) yields identical results, but with the cache disabled the first
resolution of `("a","k")` against `{"a:k": {"extra_tags": {"t": "v"}}}`
pops the sub-maps off the stored entry, so the second resolution finds
them gone: the first call returns `{"extra_tags": {"t": "v"}}`, the
second returns `{}`. -/
theorem c4_second_resolution_differs :
    (get_topic_override_config (.sub "a" "k") tblSubValue).1 =
      [(J.str "extra_tags", J.dict [(J.str "t", J.str "v")])] ∧
    (get_topic_override_config (.sub "a" "k")
        (get_topic_override_config (.sub "a" "k") tblSubValue).2).1 = [] ∧
    ([(J.str "extra_tags", J.dict [(J.str "t", J.str "v")])] : PyDict) ≠ [] := by
  refine ⟨by rfl, by rfl, ?_⟩
  intro h
  simp at h

/-- C3: a message on `dt/myapp/room/esp32/temperature` with payload
`{"value": 25}`, an empty override table and prefix `mpfx` produces
exactly one Reading: metric `mpfx ++ "temperature"`, value 25, and the
tag set
`topic, property=temperature, app=myapp, context=room, thing=esp32, context_0=room, timestamp=int(arrival)`. -/
theorem c3_single_reading (mpfx : String) (ts : ℚ) :
    (process_one_message "dt/myapp/room/esp32/temperature" "\x7b\"value\": 25\x7d" ts
        [] mpfx 128 ["metric_prefix"]).1 =
      [⟨mpfx ++ "temperature", J.int 25,
        [(J.str "topic", J.str "dt/myapp/room/esp32/temperature"),
         (J.str "property", J.str "temperature"),
         (J.str "app", J.str "myapp"),
         (J.str "context", J.str "room"),
         (J.str "thing", J.str "esp32"),
         (J.str "context_0", J.str "room"),
         (J.str "timestamp", J.int (ratTrunc ts))]⟩] := by rfl

/-- C8: payload `{"value": "foo"}` on the scenario topic: with
`value_replacement {"foo": 42}` the emitted Reading is numeric with
value 42 on the plain metric; with `value_replacement {"foo": "bar"}`
it goes to the `_info` path with value 1 and the replacement string
`"bar"` in the `val` tag. -/
theorem c8_replacement_paths (mpfx : String) (ts : ℚ) :
    (process_one_message "dt/myapp/room/esp32/temperature" "\x7b\"value\": \"foo\"\x7d" ts
        tblReplNum mpfx 128 ["metric_prefix"]).1 =
      [⟨mpfx ++ "temperature", J.int 42,
        [(J.str "topic", J.str "dt/myapp/room/esp32/temperature"),
         (J.str "property", J.str "temperature"),
         (J.str "app", J.str "myapp"),
         (J.str "context", J.str "room"),
         (J.str "thing", J.str "esp32"),
         (J.str "context_0", J.str "room"),
         (J.str "timestamp", J.int (ratTrunc ts))]⟩] ∧
    (process_one_message "dt/myapp/room/esp32/temperature" "\x7b\"value\": \"foo\"\x7d" ts
        tblReplStr mpfx 128 ["metric_prefix"]).1 =
      [⟨mpfx ++ "temperature" ++ "_info", J.int 1,
        [(J.str "topic", J.str "dt/myapp/room/esp32/temperature"),
         (J.str "property", J.str "temperature"),
         (J.str "app", J.str "myapp"),
         (J.str "context", J.str "room"),
         (J.str "thing", J.str "esp32"),
         (J.str "context_0", J.str "room"),
         (J.str "timestamp", J.int (ratTrunc ts)),
         (J.str "val", J.str "bar")]⟩] :=
  ⟨by rfl, by rfl⟩

/-- C6 (counterexample): a mapping fragment with no `value` key does not
go to the `_info` path; the payload `{}` on the scenario topic emits one
numeric Reading with the `-1` sentinel on the plain metric name (the
repository's own test `test_json_empty` asserts exactly this). -/
theorem c6_counterexample :
    (process_one_message "dt/myapp/room/esp32/temperature" "\x7b\x7d" 1700000000
        [] "mqtt__" 128 ["metric_prefix"]).1 =
      [⟨"mqtt__temperature", J.int (-1),
        [(J.str "topic", J.str "dt/myapp/room/esp32/temperature"),
         (J.str "property", J.str "temperature"),
         (J.str "app", J.str "myapp"),
         (J.str "context", J.str "room"),
         (J.str "thing", J.str "esp32"),
         (J.str "context_0", J.str "room"),
         (J.str "timestamp", J.int 1700000000)]⟩] ∧
    J.int (-1) ≠ J.int 1 ∧
    ("mqtt__temperature" : String) ≠ "mqtt__temperature" ++ "_info" := by
  refine ⟨by rfl, ?_, by decide⟩
  intro h
  simp at h

/-! ### Dictionary lemmas -/

theorem pyEq_symm (a b : J) : pyEq a b = pyEq b a := by
  unfold pyEq
  cases ha : keyView a <;> cases hb : keyView b <;> simp
  constructor <;> exact Eq.symm

theorem pyEq_trans {a b c : J} (h₁ : pyEq a b = true) (h₂ : pyEq b c = true) :
    pyEq a c = true := by
  unfold pyEq at *
  cases ha : keyView a <;> cases hb : keyView b <;> cases hc : keyView c <;>
    simp_all

theorem pyEq_str_self (s : String) : pyEq (J.str s) (J.str s) = true := by
  simp [pyEq, keyView]

theorem pyEq_str_iff (s t : String) : pyEq (J.str s) (J.str t) = true ↔ s = t := by
  simp [pyEq, keyView]

theorem pyGet?_nil (k : J) : pyGet? [] k = none := rfl

theorem pyGet?_cons (p : J × J) (d : PyDict) (k : J) :
    pyGet? (p :: d) k = if pyEq p.1 k then some p.2 else pyGet? d k := by
  by_cases h : pyEq p.1 k = true <;> simp [pyGet?, List.find?, h]

theorem pyContains_cons (p : J × J) (d : PyDict) (k : J) :
    pyContains (p :: d) k = (pyEq p.1 k || pyContains d k) := by
  simp [pyContains]

theorem pyContains_of_get_some {d : PyDict} {k : J} {r : J} (h : pyGet? d k = some r) :
    pyContains d k = true := by
  induction d with
  | nil => simp [pyGet?] at h
  | cons p ps ih =>
    rw [pyGet?_cons] at h
    rw [pyContains_cons]
    by_cases hp : pyEq p.1 k = true
    · simp [hp]
    · simp [hp] at h ⊢
      exact ih h

theorem pyGet?_eq_none_of_not_contains {d : PyDict} {k : J}
    (h : pyContains d k = false) : pyGet? d k = none := by
  induction d with
  | nil => rfl
  | cons p ps ih =>
    rw [pyContains_cons] at h
    rw [pyGet?_cons]
    simp only [Bool.or_eq_false_iff] at h
    simp [h.1]
    exact ih h.2

theorem pyPop_of_none {d : PyDict} {k : J} (dflt : J) (h : pyGet? d k = none) :
    pyPop d k dflt = (dflt, d) := by
  induction d with
  | nil => rfl
  | cons p ps ih =>
    rw [pyGet?_cons] at h
    by_cases hp : pyEq p.1 k = true
    · simp [hp] at h
    · simp [hp] at h
      simp [pyPop, hp, ih h]

theorem pyPop_fst (d : PyDict) (k dflt : J) : (pyPop d k dflt).1 = pyGetD d k dflt := by
  induction d with
  | nil => rfl
  | cons p ps ih =>
    rw [show pyGetD (p :: ps) k dflt =
      (if pyEq p.1 k then some p.2 else pyGet? ps k).elim dflt id from by
        rw [pyGetD, pyGet?_cons]; cases h : (if pyEq p.1 k then some p.2 else pyGet? ps k) <;> simp]
    by_cases hp : pyEq p.1 k = true
    · simp [pyPop, hp]
    · simp [pyPop, hp, ih, pyGetD]
      cases h : pyGet? ps k <;> simp

theorem pyGet?_pySet_eq {k k' : J} (d : PyDict) (v : J) (hk : pyEq k k' = true) :
    pyGet? (pySet d k v) k' = some v := by
  induction d with
  | nil => simp [pySet, pyGet?_cons, hk]
  | cons p ps ih =>
    by_cases hp : pyEq p.1 k = true
    · simp [pySet, hp, pyGet?_cons, pyEq_trans hp hk]
    · have hp' : pyEq p.1 k' = false := by
        by_contra hc
        simp only [Bool.not_eq_false] at hc
        exact hp (pyEq_trans hc ((pyEq_symm k k') ▸ hk))
      simp [pySet, hp, pyGet?_cons, hp', ih]

theorem pyGet?_pySet_ne {k k' : J} (d : PyDict) (v : J) (hk : pyEq k k' = false) :
    pyGet? (pySet d k v) k' = pyGet? d k' := by
  induction d with
  | nil => simp [pySet, pyGet?_cons, hk, pyGet?_nil]
  | cons p ps ih =>
    by_cases hp : pyEq p.1 k = true
    · have hp' : pyEq p.1 k' = false := by
        by_contra hc
        simp only [Bool.not_eq_false] at hc
        have := pyEq_trans ((pyEq_symm p.1 k) ▸ hp) hc
        simp [this] at hk
      simp [pySet, hp, pyGet?_cons, hp']
    · simp only [pySet, hp, if_neg, Bool.false_eq_true, not_false_eq_true, ite_false,
        pyGet?_cons, ih]

theorem pyContains_pySet (d : PyDict) (k v k' : J) :
    pyContains (pySet d k v) k' = (pyContains d k' || pyEq k k') := by
  induction d with
  | nil => simp [pySet, pyContains]
  | cons p ps ih =>
    by_cases hp : pyEq p.1 k = true
    · simp [pySet, hp, pyContains_cons]
      by_cases hp' : pyEq p.1 k' = true
      · simp [hp']
      · simp [hp']
        intro h
        exact absurd (pyEq_trans hp h) hp'
    · simp [pySet, hp, pyContains_cons, ih]
      by_cases hp' : pyEq p.1 k' = true <;> simp [hp', Bool.or_assoc]

theorem pyContains_pyUpdate (d e : PyDict) (k : J) :
    pyContains (pyUpdate d e) k = (pyContains d k || pyContains e k) := by
  induction e generalizing d with
  | nil => simp [pyUpdate, pyContains]
  | cons p ps ih =>
    show pyContains (pyUpdate (pySet d p.1 p.2) ps) k = _
    rw [ih, pyContains_pySet, pyContains_cons]
    by_cases h1 : pyContains d k = true <;> by_cases h2 : pyEq p.1 k = true <;>
      simp [h1, h2]

theorem pyGet?_pyUpdate_of_not_mem (d : PyDict) {e : PyDict} {k : J}
    (he : pyContains e k = false) : pyGet? (pyUpdate d e) k = pyGet? d k := by
  induction e generalizing d with
  | nil => rfl
  | cons p ps ih =>
    rw [pyContains_cons] at he
    simp only [Bool.or_eq_false_iff] at he
    show pyGet? (pyUpdate (pySet d p.1 p.2) ps) k = _
    rw [ih _ he.2, pyGet?_pySet_ne _ _ he.1]

theorem pyGet?_append (a b : PyDict) (k : J) :
    pyGet? (a ++ b) k = (pyGet? a k).orElse (fun _ => pyGet? b k) := by
  induction a with
  | nil => simp [pyGet?]
  | cons p ps ih =>
    rw [List.cons_append, pyGet?_cons, pyGet?_cons]
    by_cases hp : pyEq p.1 k = true <;> simp [hp, ih]

/-- `none` results survive `pyPop` of another key. -/
theorem pyGet?_pyPop_none {d : PyDict} {k' : J} (k dflt : J)
    (h : pyGet? d k' = none) : pyGet? (pyPop d k dflt).2 k' = none := by
  induction d with
  | nil => simpa [pyPop] using h
  | cons p ps ih =>
    rw [pyGet?_cons] at h
    by_cases hp : pyEq p.1 k' = true
    · simp [hp] at h
    · simp [hp] at h
      by_cases hk : pyEq p.1 k = true
      · simp [pyPop, hk, h]
      · simp [pyPop, hk, pyGet?_cons, hp, ih h]

theorem pyNodup_cons (p : J × J) (d : PyDict) :
    pyNodup (p :: d) = (!(pyContains d p.1) && pyNodup d) := rfl

/-- Setting a hashable key preserves key distinctness. -/
theorem pyNodup_pySet {d : PyDict} (k v : J) (hd : pyNodup d = true) :
    pyNodup (pySet d k v) = true := by
  induction d with
  | nil => simp [pySet, pyNodup, pyContains]
  | cons p ps ih =>
    rw [pyNodup_cons] at hd
    simp only [Bool.and_eq_true, Bool.not_eq_true'] at hd
    by_cases hp : pyEq p.1 k = true
    · simp [pySet, hp, pyNodup_cons, hd.1, hd.2]
    · rw [show pySet (p :: ps) k v = p :: pySet ps k v from by simp [pySet, hp]]
      rw [pyNodup_cons, ih hd.2, pyContains_pySet, hd.1]
      simp
      by_contra hc
      simp only [Bool.not_eq_false] at hc
      exact hp (pyEq_symm p.1 k ▸ hc)

theorem pyNodup_pyUpdate {d : PyDict} (e : PyDict) (hd : pyNodup d = true) :
    pyNodup (pyUpdate d e) = true := by
  induction e generalizing d with
  | nil => exact hd
  | cons p ps ih => exact ih (pyNodup_pySet p.1 p.2 hd)

def stripNull : Option J → Option J
  | some J.null => none
  | x => x

theorem stripNull_some {v : J} (h : isNull v = false) : stripNull (some v) = some v := by
  cases v <;> simp [isNull] at h ⊢ <;> rfl

theorem pyContains_congr {k k' : J} (h : pyEq k k' = true) (d : PyDict) :
    pyContains d k = pyContains d k' := by
  induction d with
  | nil => rfl
  | cons p ps ih =>
    rw [pyContains_cons, pyContains_cons, ih]
    congr 1
    by_cases hp : pyEq p.1 k = true
    · rw [hp, pyEq_trans hp h]
    · have hp' : pyEq p.1 k' = false := by
        by_contra hc
        simp only [Bool.not_eq_false] at hc
        exact hp (pyEq_trans hc ((pyEq_symm k k') ▸ h))
      rw [Bool.not_eq_true] at hp
      rw [hp, hp']

/-- Looking up in the null-filtered dict equals stripping a null result,
provided keys are distinct. -/
theorem pyGet?_filter_nonNull {d : PyDict} (k : J) (hd : pyNodup d = true) :
    pyGet? (d.filter (fun p => !(isNull p.2))) k = stripNull (pyGet? d k) := by
  induction d with
  | nil => rfl
  | cons p ps ih =>
    rw [pyNodup_cons] at hd
    simp only [Bool.and_eq_true, Bool.not_eq_true'] at hd
    rw [List.filter_cons, pyGet?_cons]
    by_cases hp : pyEq p.1 k = true
    · have hps : pyGet? ps k = none :=
        pyGet?_eq_none_of_not_contains
          (by rw [pyContains_congr ((pyEq_symm p.1 k) ▸ hp) ps]; exact hd.1)
      by_cases hn : isNull p.2 = true
      · have hpv : p.2 = J.null := by cases hv : p.2 <;> simp [isNull, hv] at hn ⊢
        rw [if_neg (by simp [hn]), ih hd.2, hps, if_pos hp, hpv]
        rfl
      · rw [if_pos (by simp [hn]), pyGet?_cons, if_pos hp, if_pos hp,
          stripNull_some (Bool.not_eq_true _ ▸ hn)]
    · by_cases hn : isNull p.2 = true
      · rw [if_neg (by simp [hn]), ih hd.2, if_neg hp]
      · rw [if_pos (by simp [hn]), pyGet?_cons, if_neg hp, ih hd.2, if_neg hp]

/-- Keys excluded by `tags_exclude` never appear among the payload tags
of a mapping fragment. -/
theorem payload_tags_excluded (kvs : List (J × J)) (excl : List String) (n : String)
    (hn : excl.contains (lowerStr n) = true) (ov : PyDict) (L : ℕ) :
    pyGet? (extract_payload_tags_and_value (J.dict kvs) excl ov L).1 (J.str n) = none := by
  have hn' : lowerStr n ∈ excl := by simpa using hn
  show pyGet? ((pyPop kvs (J.str "value") (J.int (-1))).2.filterMap _) (J.str n) = none
  generalize (pyPop kvs (J.str "value") (J.int (-1))).2 = l
  induction l with
  | nil => rfl
  | cons p ps ih =>
    rw [List.filterMap_cons]
    cases hk : p.1 with
    | str k =>
      by_cases hs : isStrIntFloat p.2 = true
      · by_cases hx : lowerStr k ∈ excl
        · simp [hs, hx]
          simpa using ih
        · have hne : pyEq (J.str k) (J.str n) = false := by
            by_contra hc
            simp only [Bool.not_eq_false] at hc
            rw [(pyEq_str_iff k n).1 hc] at hx
            exact hx hn'
          by_cases ht : k = "timestamp"
          · subst ht
            simp [hs, hx, pyGet?_cons, hne]
            simpa using ih
          · simp [hs, hx, ht, pyGet?_cons, hne]
            simpa using ih
      · simp [hs]
        simpa using ih
    | null => simpa using ih
    | bool b => simpa using ih
    | int m => simpa using ih
    | flt q => simpa using ih
    | nonfinite => simpa using ih
    | dict d => simpa using ih
    | arr xs => simpa using ih

/-- C6 (amended): a mapping fragment with no `value` key yields the `-1`
sentinel value (the `pop` default), not the `_info` path: absent a
`value_replacement` hit for `-1`, the extracted value is `J.int (-1)`,
and the fragment is emitted as a numeric Reading with value `-1` on the
plain metric name. -/
theorem c6_amended_sentinel :
    (∀ kvs excl ov L, pyGet? kvs (J.str "value") = none →
        pyGet? ov (J.str "value_replacement") = none →
        (extract_payload_tags_and_value (J.dict kvs) excl ov L).2 = J.int (-1)) ∧
    (∀ kvs ts mpfx L, pyGet? kvs (J.str "value") = none →
        ∃ tags, (processFragment [] [] (.base "a/b") (J.dict kvs) ts mpfx L
            ["metric_prefix"]).1 = some ⟨mpfx ++ "b", J.int (-1), tags⟩) := by
  constructor
  · intro kvs excl ov L h1 h2
    have hv : (pyPop kvs (J.str "value") (J.int (-1))).1 = J.int (-1) := by
      rw [pyPop_fst, pyGetD, h1]
    show normalize_value (pyPop kvs (J.str "value") (J.int (-1))).1 ov L = _
    rw [hv]
    simp [normalize_value, normalizeValueFuel, vrDict, pyGetD, h2]
  · intro kvs ts mpfx L h1
    have hv : (pyPop kvs (J.str "value") (J.int (-1))).1 = J.int (-1) := by
      rw [pyPop_fst, pyGetD, h1]
    have hval : (extract_payload_tags_and_value (J.dict kvs) ["metric_prefix"] [] L).2 =
        J.int (-1) := by
      show normalize_value (pyPop kvs (J.str "value") (J.int (-1))).1 [] L = _
      rw [hv]
      rfl
    have hmp : pyGet? (extract_payload_tags_and_value (J.dict kvs) ["metric_prefix"] [] L).1
        (J.str "metric_prefix") = none :=
      payload_tags_excluded kvs _ _ (by rfl) [] L
    have hstep : extract_tags_and_value (.base "a/b") (J.dict kvs) ts [] ["metric_prefix"] L =
        some (tsFix (pyUpdate
            (extract_payload_tags_and_value (J.dict kvs) ["metric_prefix"] [] L).1
            [(J.str "topic", J.str "a/b"), (J.str "property", J.str "b")]) ts,
          (extract_payload_tags_and_value (J.dict kvs) ["metric_prefix"] [] L).2) := by rfl
    set ptags := (extract_payload_tags_and_value (J.dict kvs) ["metric_prefix"] [] L).1 with hpt
    set merged := pyUpdate ptags [(J.str "topic", J.str "a/b"), (J.str "property", J.str "b")]
      with hmg
    have hmgmp : pyGet? merged (J.str "metric_prefix") = none := by
      rw [hmg, show pyUpdate ptags [(J.str "topic", J.str "a/b"), (J.str "property", J.str "b")] =
        pySet (pySet ptags (J.str "topic") (J.str "a/b")) (J.str "property") (J.str "b") from rfl,
        pyGet?_pySet_ne _ _ (by rfl), pyGet?_pySet_ne _ _ (by rfl)]
      exact hmp
    have hmgprop : pyGet? merged (J.str "property") = some (J.str "b") := by
      rw [hmg, show pyUpdate ptags [(J.str "topic", J.str "a/b"), (J.str "property", J.str "b")] =
        pySet (pySet ptags (J.str "topic") (J.str "a/b")) (J.str "property") (J.str "b") from rfl,
        pyGet?_pySet_eq _ _ (by rfl)]
    obtain ⟨tg, htg, hmp', hprop⟩ : ∃ tg, tsFix merged ts = tg ∧
        pyGet? tg (J.str "metric_prefix") = none ∧
        pyGet? tg (J.str "property") = some (J.str "b") := by
      unfold tsFix
      cases hts : pyGet? merged (J.str "timestamp") with
      | none =>
        refine ⟨_, rfl, ?_, ?_⟩
        · rw [pyGet?_pySet_ne _ _ (by rfl)]; exact hmgmp
        · rw [pyGet?_pySet_ne _ _ (by rfl)]; exact hmgprop
      | some v =>
        cases v with
        | null =>
          refine ⟨_, rfl, ?_, ?_⟩
          · rw [pyGet?_pySet_ne _ _ (by rfl)]; exact hmgmp
          · rw [pyGet?_pySet_ne _ _ (by rfl)]; exact hmgprop
        | bool b => exact ⟨_, rfl, hmgmp, hmgprop⟩
        | int n => exact ⟨_, rfl, hmgmp, hmgprop⟩
        | flt q => exact ⟨_, rfl, hmgmp, hmgprop⟩
        | nonfinite => exact ⟨_, rfl, hmgmp, hmgprop⟩
        | str s => exact ⟨_, rfl, hmgmp, hmgprop⟩
        | dict d => exact ⟨_, rfl, hmgmp, hmgprop⟩
        | arr xs => exact ⟨_, rfl, hmgmp, hmgprop⟩
    refine ⟨tg, ?_⟩
    simp only [processFragment]
    rw [hstep, hval, htg]
    show some (Reading.mk (pyStr (pyPop tg (J.str "metric_prefix") (J.str mpfx)).1 ++
        pyStr (pyGetD (pyPop tg (J.str "metric_prefix") (J.str mpfx)).2 (J.str "property") J.null))
        (J.int (-1)) (pyPop tg (J.str "metric_prefix") (J.str mpfx)).2) =
      some (Reading.mk (mpfx ++ "b") (J.int (-1)) tg)
    rw [pyPop_of_none _ hmp']
    rw [show pyGetD tg (J.str "property") J.null = J.str "b" from by rw [pyGetD, hprop]]
    rfl

/-- Witness for C6's amended theorem at the empty fragment. -/
theorem c6_amended_sentinel_witness :
    pyGet? [] (J.str "value") = none ∧
    (extract_payload_tags_and_value (J.dict []) ["metric_prefix"] [] 128).2 = J.int (-1) ∧
    ∃ tags, (processFragment [] [] (.base "a/b") (J.dict []) 0 "m" 128 ["metric_prefix"]).1 =
      some ⟨"m" ++ "b", J.int (-1), tags⟩ :=
  ⟨rfl, c6_amended_sentinel.1 [] ["metric_prefix"] [] 128 rfl rfl,
   c6_amended_sentinel.2 [] 0 "m" 128 rfl⟩

/-- C7: value normalization coerces `"25"` and `25` to the integer 25
and `"25.5"` to the float 25.5, and a string that parses as neither int
nor float is kept (truncated to the configured maximum length) and
emitted as an `_info` metric carrying the truncated original string in
the `val` tag. -/
theorem c7_numeric_coercion :
    (∀ L, normalize_value (J.str "25") [] L = J.int 25) ∧
    (∀ L, normalize_value (J.int 25) [] L = J.int 25) ∧
    (∀ L, normalize_value (J.str "25.5") [] L = J.flt (51 / 2)) ∧
    (∀ s L ts mpfx, pyInt? s = none → pyFloat? s = none →
      normalize_value (J.str s) [] L = J.str (strTake s L) ∧
      (processFragment [] [] (.base "a/b") (J.str s) ts mpfx L ["metric_prefix"]).1 =
        some ⟨mpfx ++ "b" ++ "_info", J.int 1,
          [(J.str "topic", J.str "a/b"), (J.str "property", J.str "b"),
           (J.str "timestamp", J.int (ratTrunc ts)),
           (J.str "val", J.str (strTake s L))]⟩) := by
  refine ⟨fun L => by rfl, fun L => by rfl, fun L => ?_, ?_⟩
  · show J.flt _ = _
    congr 1
    show ((1 : ℚ) * ((25 + 5 / 10 ^ 1) * 10 ^ (0 : ℤ))) = 51 / 2
    norm_num
  intro s L ts mpfx h1 h2
  have hn : normalize_value (J.str s) [] L = J.str (strTake s L) := by
    simp [normalize_value, normalizeValueFuel, vrDict, pyGetD, pyGet?, h1, h2]
  refine ⟨hn, ?_⟩
  have hp : extract_payload_tags_and_value (J.str s) ["metric_prefix"] [] L =
      ([], J.str (strTake s L)) := by
    show ([], normalize_value (J.str s) [] L) = _
    rw [hn]
  have he : extract_tags_and_value (.base "a/b") (J.str s) ts [] ["metric_prefix"] L =
      some ([(J.str "topic", J.str "a/b"), (J.str "property", J.str "b"),
             (J.str "timestamp", J.int (ratTrunc ts))], J.str (strTake s L)) := by
    unfold extract_tags_and_value
    rw [hp]
    rfl
  simp only [processFragment]
  rw [he]
  rfl

/-- Witness for C7 at the non-numeric string `"abc"`. -/
theorem c7_numeric_coercion_witness :
    pyInt? "abc" = none ∧ pyFloat? "abc" = none ∧
    (normalize_value (J.str "abc") [] 2 = J.str (strTake "abc" 2) ∧
     (processFragment [] [] (.base "a/b") (J.str "abc") 0 "m" 2 ["metric_prefix"]).1 =
       some ⟨"m" ++ "b" ++ "_info", J.int 1,
         [(J.str "topic", J.str "a/b"), (J.str "property", J.str "b"),
          (J.str "timestamp", J.int (ratTrunc 0)),
          (J.str "val", J.str (strTake "abc" 2))]⟩) :=
  ⟨by rfl, by rfl, c7_numeric_coercion.2.2.2 "abc" 2 0 "m" (by rfl) (by rfl)⟩

/-- C10: a JSON boolean value that hits no value-replacement entry
passes through normalization unchanged (Python treats `bool` as a
subclass of `int`), and the emitted Reading is on the plain metric path
with numeric value 1 for true and 0 for false; moreover a boolean value
does probe the `value_replacement` table under its boolean key (via
Python numeric key equality). -/
theorem c10_bool_passthrough :
    (∀ b ov L, find_value_replacement (J.bool b) (vrDict ov) L = J.null →
        normalize_value (J.bool b) ov L = J.bool b) ∧
    (∀ b ts mpfx,
        (processFragment [] [] (.base "a/b") (J.dict [(J.str "value", J.bool b)]) ts mpfx 128
            ["metric_prefix"]).1 =
          some ⟨mpfx ++ "b", J.bool b,
            [(J.str "topic", J.str "a/b"), (J.str "property", J.str "b"),
             (J.str "timestamp", J.int (ratTrunc ts))]⟩ ∧
        numOf (J.bool b) = some (if b then 1 else 0)) ∧
    (∀ b d L r, pyGet? d (J.bool b) = some r → find_value_replacement (J.bool b) d L = r) := by
  refine ⟨?_, ?_, ?_⟩
  · intro b ov L h
    by_cases hl : (vrDict ov).length > 0 <;>
      simp [normalize_value, normalizeValueFuel, hl, h]
  · intro b ts mpfx
    cases b <;> exact ⟨by rfl, by rfl⟩
  · intro b d L r h
    have hc : pyContains d (J.bool b) = true := pyContains_of_get_some h
    have hlen : d.length > 0 := by
      cases d with
      | nil => simp [pyGet?] at h
      | cons p ps => simp
    simp [find_value_replacement, hlen, hc, pyGetD, h]

/-- Witness for C10: `true` with no replacement table, and `true`
hitting the entry stored under the int key `1`. -/
theorem c10_bool_passthrough_witness :
    find_value_replacement (J.bool true) (vrDict []) 128 = J.null ∧
    normalize_value (J.bool true) [] 128 = J.bool true ∧
    pyGet? [(J.int 1, J.int 7)] (J.bool true) = some (J.int 7) ∧
    find_value_replacement (J.bool true) [(J.int 1, J.int 7)] 128 = J.int 7 :=
  ⟨by rfl, c10_bool_passthrough.1 true [] 128 (by rfl), by rfl,
   c10_bool_passthrough.2.2 true [(J.int 1, J.int 7)] 128 (J.int 7) (by rfl)⟩

theorem mem_insertScored (f : String → ℚ) (x b : String) (l : List String) :
    b ∈ insertScored f x l ↔ b = x ∨ b ∈ l := by
  induction l with
  | nil => simp [insertScored]
  | cons y ys ih =>
    simp only [insertScored]
    by_cases h : f x < f y
    · simp [h]
    · rw [if_neg h]
      simp only [List.mem_cons, ih]
      tauto

theorem insertScored_perm (f : String → ℚ) (x : String) (l : List String) :
    (insertScored f x l).Perm (x :: l) := by
  induction l with
  | nil => exact List.Perm.refl _
  | cons y ys ih =>
    simp only [insertScored]
    by_cases h : f x < f y
    · simp [h]
    · rw [if_neg h]
      exact (ih.cons y).trans (List.Perm.swap x y ys)

theorem stableSort_perm_aux (f : String → ℚ) (l : List String) :
    ∀ acc : List String,
      (l.foldl (fun a x => insertScored f x a) acc).Perm (acc ++ l) := by
  induction l with
  | nil => intro acc; simp
  | cons y ys ih =>
    intro acc
    simp only [List.foldl_cons]
    refine (ih (insertScored f y acc)).trans ?_
    refine (List.Perm.append_right ys (insertScored_perm f y acc)).trans ?_
    exact List.perm_middle.symm

theorem stableSort_perm (f : String → ℚ) (l : List String) :
    (stableSortByScore f l).Perm l := by
  simpa using stableSort_perm_aux f l []

theorem sorted_insertScored (f : String → ℚ) (x : String) {l : List String}
    (h : l.Sorted (fun a b => f a ≤ f b)) :
    (insertScored f x l).Sorted (fun a b => f a ≤ f b) := by
  induction l with
  | nil => simp [insertScored]
  | cons y ys ih =>
    rw [List.sorted_cons] at h
    obtain ⟨hy, hys⟩ := h
    simp only [insertScored]
    by_cases hxy : f x < f y
    · rw [if_pos hxy]
      refine List.sorted_cons.mpr ⟨?_, List.sorted_cons.mpr ⟨hy, hys⟩⟩
      intro b hb
      rcases List.mem_cons.mp hb with rfl | hb'
      · exact le_of_lt hxy
      · exact le_trans (le_of_lt hxy) (hy b hb')
    · rw [if_neg hxy]
      refine List.sorted_cons.mpr ⟨?_, ih hys⟩
      intro b hb
      rcases (mem_insertScored f x b ys).mp hb with rfl | hb'
      · exact le_of_not_lt hxy
      · exact hy b hb'

theorem sorted_stableSort_aux (f : String → ℚ) (l : List String) :
    ∀ acc : List String, acc.Sorted (fun a b => f a ≤ f b) →
      (l.foldl (fun a x => insertScored f x a) acc).Sorted (fun a b => f a ≤ f b) := by
  induction l with
  | nil => intro acc h; exact h
  | cons y ys ih =>
    intro acc h
    exact ih (insertScored f y acc) (sorted_insertScored f y h)

theorem sorted_stableSort (f : String → ℚ) (l : List String) :
    (stableSortByScore f l).Sorted (fun a b => f a ≤ f b) :=
  sorted_stableSort_aux f l [] (List.sorted_nil)

theorem insertPair_map_tag (f : String → ℚ) (x : String) (l : List String) :
    insertPair (f x, x) (l.map (fun s => (f s, s))) =
      (insertScored f x l).map (fun s => (f s, s)) := by
  induction l with
  | nil => rfl
  | cons y ys ih =>
    simp only [List.map_cons, insertPair, insertScored]
    by_cases h : f x < f y
    · simp [h]
    · simp only [h, if_neg, if_false, List.map_cons, ih]

theorem sortPairs_map_tag_aux (f : String → ℚ) (l : List String) :
    ∀ acc : List String,
      (l.map (fun s => (f s, s))).foldl (fun a x => insertPair x a)
          (acc.map (fun s => (f s, s))) =
        (l.foldl (fun a x => insertScored f x a) acc).map (fun s => (f s, s)) := by
  induction l with
  | nil => intro acc; rfl
  | cons y ys ih =>
    intro acc
    simp only [List.map_cons, List.foldl_cons]
    rw [insertPair_map_tag, ih]

theorem sortPairs_map_tag (f : String → ℚ) (l : List String) :
    sortPairs (l.map (fun s => (f s, s))) =
      (stableSortByScore f l).map (fun s => (f s, s)) := by
  have h := sortPairs_map_tag_aux f l []
  simpa [sortPairs, stableSortByScore] using h

theorem matchFold_eq_filter (topic : String) (subs : List String) :
    ∀ acc : List (ℚ × String),
      subs.foldl (fun acc sub =>
          if topic_matches_sub sub topic then acc ++ [(specificity sub, sub)] else acc) acc =
        acc ++ (subs.filter (fun s => topic_matches_sub s topic)).map
          (fun s => (specificity s, s)) := by
  induction subs with
  | nil => intro acc; simp
  | cons y ys ih =>
    intro acc
    simp only [List.foldl_cons, List.filter_cons]
    by_cases h : topic_matches_sub y topic
    · simp [h, ih]
    · simp [h, ih]

theorem sort_subs_eq_ranked (topic : String) (subs : List String) :
    sort_subs_by_specificity topic subs = rankedBySpecificity topic subs := by
  unfold sort_subs_by_specificity rankedBySpecificity
  rw [matchFold_eq_filter topic subs []]
  simp only [List.nil_append]
  rw [sortPairs_map_tag]
  rw [List.map_map]
  have hid : (Prod.snd ∘ fun s : String => (specificity s, s)) = fun s => s := rfl
  rw [hid, List.map_id']

/-- C2: the specificity ranking returns exactly the subscription
patterns that wildcard-match the topic, stably sorted by ascending
specificity score. -/
theorem c2_specificity_ranking (topic : String) (subs : List String) :
    sort_subs_by_specificity topic subs = rankedBySpecificity topic subs ∧
    (sort_subs_by_specificity topic subs).Perm
      (subs.filter (fun s => topic_matches_sub s topic)) ∧
    (sort_subs_by_specificity topic subs).Sorted
      (fun a b => specificity a ≤ specificity b) ∧
    (∀ s, s ∈ sort_subs_by_specificity topic subs ↔
      s ∈ subs ∧ topic_matches_sub s topic = true) := by
  have he := sort_subs_eq_ranked topic subs
  refine ⟨he, ?_, ?_, ?_⟩
  · rw [he]
    unfold rankedBySpecificity
    exact stableSort_perm _ _
  · rw [he]
    unfold rankedBySpecificity
    exact sorted_stableSort _ _
  · intro s
    rw [he]
    unfold rankedBySpecificity
    rw [(stableSort_perm _ _).mem_iff]
    simp [List.mem_filter]

theorem pyGet?_pyDel_eq {k k' : J} (d : PyDict) (h : pyEq k' k = true) :
    pyGet? (pyDel d k) k' = none := by
  induction d with
  | nil => rfl
  | cons p ps ih =>
    simp only [pyDel, List.filter_cons]
    by_cases hp : pyEq p.1 k = true
    · rw [if_neg (by simp [hp])]
      exact ih
    · rw [if_pos (by simp [hp])]
      rw [pyGet?_cons]
      have hp' : pyEq p.1 k' = false := by
        by_contra hc
        simp only [Bool.not_eq_false] at hc
        exact hp (pyEq_trans hc h)
      rw [if_neg (by simp [hp'])]
      exact ih

theorem pyGet?_pyDel_ne {k k' : J} (d : PyDict) (h : pyEq k' k = false) :
    pyGet? (pyDel d k) k' = pyGet? d k' := by
  induction d with
  | nil => rfl
  | cons p ps ih =>
    simp only [pyDel, List.filter_cons]
    by_cases hp : pyEq p.1 k = true
    · rw [if_neg (by simp [hp])]
      rw [pyGet?_cons]
      have hp' : pyEq p.1 k' = false := by
        by_contra hc
        simp only [Bool.not_eq_false] at hc
        have h1 : pyEq k' p.1 = true := (pyEq_symm p.1 k') ▸ hc
        rw [pyEq_trans h1 hp] at h
        cases h
      rw [if_neg (by simp [hp'])]
      exact ih
    · rw [if_pos (by simp [hp])]
      rw [pyGet?_cons, pyGet?_cons]
      by_cases hk' : pyEq p.1 k' = true
      · rw [if_pos hk', if_pos hk']
      · rw [if_neg hk', if_neg hk']
        exact ih

/-- The invariant tying the code accumulator of `_get_override`'s base
fold to the claim-side structured accumulator: scalars agree as a
mapping once nulls are stripped (the code stores nulls and filters them
at the end, the claim deletes eagerly), the code scalars have distinct
keys and never hold the two sub-map keys, and the sub-map components
are literally equal. -/
structure OvInv (c : PyDict × PyDict × PyDict) (a : OvSpecAcc) : Prop where
  sc : ∀ k : J, stripNull (pyGet? c.1 k) = pyGet? a.scalars k
  nd : pyNodup c.1 = true
  net : pyContains c.1 (J.str "extra_tags") = false
  nvr : pyContains c.1 (J.str "value_replacement") = false
  het : c.2.1 = a.extraTags
  hvr : c.2.2 = a.valueRepl

/-- The per-spec body of the code's fold step (`getOverrideStep` after
the table lookup succeeded). -/
def codeSpecApply (spec : PyDict) (c : PyDict × PyDict × PyDict) :
    PyDict × PyDict × PyDict :=
  let pe := pyPop spec (J.str "extra_tags") (J.dict [])
  let output_extra_tags :=
    match pe.1 with
    | J.null => []
    | J.dict d => pyUpdate c.2.1 d
    | _ => c.2.1
  let pv := pyPop pe.2 (J.str "value_replacement") (J.dict [])
  let output_value_replacement :=
    match pv.1 with
    | J.null => []
    | J.dict d => pyUpdate c.2.2 d
    | _ => c.2.2
  (pyUpdate c.1 pv.2, output_extra_tags, output_value_replacement)

theorem getOverrideStep_eq (tbl : Table) (c : PyDict × PyDict × PyDict) (s : String) :
    getOverrideStep tbl c s =
      match tblGet tbl s with
      | none => ([], [], [])
      | some spec => codeSpecApply spec c := by
  cases h : tblGet tbl s <;> simp [getOverrideStep, codeSpecApply, h]

/-- The claim-side per-entry fold step of `overrideStepWith pyUpdate`. -/
def claimEntryU (a : OvSpecAcc) (p : J × J) : OvSpecAcc :=
  if pyEq p.1 (J.str "extra_tags") then
    match p.2 with
    | J.null => { a with extraTags := [] }
    | J.dict d => { a with extraTags := pyUpdate a.extraTags d }
    | _ => a
  else if pyEq p.1 (J.str "value_replacement") then
    match p.2 with
    | J.null => { a with valueRepl := [] }
    | J.dict d => { a with valueRepl := pyUpdate a.valueRepl d }
    | _ => a
  else
    match p.2 with
    | J.null => { a with scalars := pyDel a.scalars p.1 }
    | v => { a with scalars := pySet a.scalars p.1 v }

theorem overrideStepWith_update_eq (a : OvSpecAcc) (spec : PyDict) :
    overrideStepWith pyUpdate a (some spec) = spec.foldl claimEntryU a := rfl

theorem sc_step {cs as : PyDict} (hsc : ∀ k : J, stripNull (pyGet? cs k) = pyGet? as k)
    (key v : J) :
    ∀ k : J, stripNull (pyGet? (pySet cs key v) k) =
      pyGet? (match v with
              | J.null => pyDel as key
              | v => pySet as key v) k := by
  intro k
  by_cases hkk : pyEq key k = true
  · rw [pyGet?_pySet_eq _ _ hkk]
    cases v with
    | null =>
      show stripNull (some J.null) = pyGet? (pyDel as key) k
      rw [pyGet?_pyDel_eq as ((pyEq_symm key k) ▸ hkk)]
      rfl
    | bool b => rw [pyGet?_pySet_eq _ _ hkk]; rfl
    | int n => rw [pyGet?_pySet_eq _ _ hkk]; rfl
    | flt q => rw [pyGet?_pySet_eq _ _ hkk]; rfl
    | nonfinite => rw [pyGet?_pySet_eq _ _ hkk]; rfl
    | str s => rw [pyGet?_pySet_eq _ _ hkk]; rfl
    | dict d => rw [pyGet?_pySet_eq _ _ hkk]; rfl
    | arr xs => rw [pyGet?_pySet_eq _ _ hkk]; rfl
  · rw [Bool.not_eq_true] at hkk
    rw [pyGet?_pySet_ne _ _ hkk]
    have hkk' : pyEq k key = false := (pyEq_symm k key).trans hkk
    cases v with
    | null => rw [pyGet?_pyDel_ne as hkk']; exact hsc k
    | bool b => rw [pyGet?_pySet_ne _ _ hkk]; exact hsc k
    | int n => rw [pyGet?_pySet_ne _ _ hkk]; exact hsc k
    | flt q => rw [pyGet?_pySet_ne _ _ hkk]; exact hsc k
    | nonfinite => rw [pyGet?_pySet_ne _ _ hkk]; exact hsc k
    | str s => rw [pyGet?_pySet_ne _ _ hkk]; exact hsc k
    | dict d => rw [pyGet?_pySet_ne _ _ hkk]; exact hsc k
    | arr xs => rw [pyGet?_pySet_ne _ _ hkk]; exact hsc k

theorem codeSpecApply_aligned (spec : PyDict) :
    ∀ (c : PyDict × PyDict × PyDict) (a : OvSpecAcc),
      pyNodup spec = true →
      OvInv c a →
      OvInv (codeSpecApply spec c) (spec.foldl claimEntryU a) := by
  induction spec with
  | nil =>
    intro c a _ h
    exact h
  | cons p rest ih =>
    intro c a hnd hinv
    rw [pyNodup_cons] at hnd
    simp only [Bool.and_eq_true, Bool.not_eq_true'] at hnd
    obtain ⟨hnc, hndr⟩ := hnd
    rw [List.foldl_cons]
    by_cases he : pyEq p.1 (J.str "extra_tags") = true
    · have hre : pyContains rest (J.str "extra_tags") = false := by
        rw [← pyContains_congr he rest]; exact hnc
      have hge : pyGet? rest (J.str "extra_tags") = none :=
        pyGet?_eq_none_of_not_contains hre
      have hstep : codeSpecApply (p :: rest) c =
          codeSpecApply rest (c.1,
            (match p.2 with
             | J.null => ([] : PyDict)
             | J.dict d => pyUpdate c.2.1 d
             | _ => c.2.1), c.2.2) := by
        simp only [codeSpecApply]
        rw [show pyPop (p :: rest) (J.str "extra_tags") (J.dict []) = (p.2, rest) from by
          simp [pyPop, he]]
        rw [pyPop_of_none _ hge]
        rfl
      have hclaim : claimEntryU a p =
          ⟨a.scalars,
           (match p.2 with
            | J.null => ([] : PyDict)
            | J.dict d => pyUpdate a.extraTags d
            | _ => a.extraTags), a.valueRepl⟩ := by
        unfold claimEntryU
        rw [if_pos he]
        cases p.2 <;> rfl
      rw [hstep, hclaim]
      refine ih _ _ hndr ⟨hinv.sc, hinv.nd, hinv.net, hinv.nvr, ?_, hinv.hvr⟩
      cases p.2 <;> simp [hinv.het]
    · rw [Bool.not_eq_true] at he
      by_cases hv : pyEq p.1 (J.str "value_replacement") = true
      · have hrv : pyContains rest (J.str "value_replacement") = false := by
          rw [← pyContains_congr hv rest]; exact hnc
        have hgv : pyGet? rest (J.str "value_replacement") = none :=
          pyGet?_eq_none_of_not_contains hrv
        have hstep : codeSpecApply (p :: rest) c =
            codeSpecApply rest (c.1, c.2.1,
              (match p.2 with
               | J.null => ([] : PyDict)
               | J.dict d => pyUpdate c.2.2 d
               | _ => c.2.2)) := by
          simp only [codeSpecApply]
          rw [show pyPop (p :: rest) (J.str "extra_tags") (J.dict []) =
              ((pyPop rest (J.str "extra_tags") (J.dict [])).1,
               p :: (pyPop rest (J.str "extra_tags") (J.dict [])).2) from by
            simp [pyPop, he]]
          rw [show pyPop (p :: (pyPop rest (J.str "extra_tags") (J.dict [])).2)
              (J.str "value_replacement") (J.dict []) =
              (p.2, (pyPop rest (J.str "extra_tags") (J.dict [])).2) from by
            simp [pyPop, hv]]
          rw [pyPop_of_none _
            (pyGet?_pyPop_none (J.str "extra_tags") (J.dict []) hgv)]
          rfl
        have hclaim : claimEntryU a p =
            ⟨a.scalars, a.extraTags,
             (match p.2 with
              | J.null => ([] : PyDict)
              | J.dict d => pyUpdate a.valueRepl d
              | _ => a.valueRepl)⟩ := by
          unfold claimEntryU
          rw [if_neg (by simp [he]), if_pos hv]
          cases p.2 <;> rfl
        rw [hstep, hclaim]
        refine ih _ _ hndr ⟨hinv.sc, hinv.nd, hinv.net, hinv.nvr, hinv.het, ?_⟩
        cases p.2 <;> simp [hinv.hvr]
      · rw [Bool.not_eq_true] at hv
        have hstep : codeSpecApply (p :: rest) c =
            codeSpecApply rest (pySet c.1 p.1 p.2, c.2.1, c.2.2) := by
          simp only [codeSpecApply]
          rw [show pyPop (p :: rest) (J.str "extra_tags") (J.dict []) =
              ((pyPop rest (J.str "extra_tags") (J.dict [])).1,
               p :: (pyPop rest (J.str "extra_tags") (J.dict [])).2) from by
            simp [pyPop, he]]
          rw [show pyPop (p :: (pyPop rest (J.str "extra_tags") (J.dict [])).2)
              (J.str "value_replacement") (J.dict []) =
              ((pyPop (pyPop rest (J.str "extra_tags") (J.dict [])).2
                  (J.str "value_replacement") (J.dict [])).1,
               p :: (pyPop (pyPop rest (J.str "extra_tags") (J.dict [])).2
                  (J.str "value_replacement") (J.dict [])).2) from by
            simp [pyPop, hv]]
          rfl
        have hclaim : claimEntryU a p =
            ⟨(match p.2 with
              | J.null => pyDel a.scalars p.1
              | v => pySet a.scalars p.1 v), a.extraTags, a.valueRepl⟩ := by
          unfold claimEntryU
          rw [if_neg (by simp [he]), if_neg (by simp [hv])]
          cases p.2 <;> rfl
        rw [hstep, hclaim]
        refine ih _ _ hndr ⟨sc_step hinv.sc p.1 p.2, pyNodup_pySet p.1 p.2 hinv.nd,
          ?_, ?_, hinv.het, hinv.hvr⟩
        · rw [pyContains_pySet]
          simp [hinv.net, he]
        · rw [pyContains_pySet]
          simp [hinv.nvr, hv]

theorem wf_tblGet {tbl : Table} (hw : wellFormedTable tbl = true) {s : String}
    {spec : PyDict} (h : tblGet tbl s = some spec) : wfSpec spec = true := by
  unfold tblGet at h
  cases hf : tbl.find? (fun p => p.1 == s) with
  | none =>
    rw [hf] at h
    have : spec = [] := by
      injection h with h'
      exact h'.symm
    rw [this]
    rfl
  | some p =>
    rw [hf] at h
    have h2 : p.2 = some spec := h
    have hmem := List.mem_of_find?_eq_some hf
    unfold wellFormedTable at hw
    simp only [Bool.and_eq_true, List.all_eq_true] at hw
    have := hw.2 p hmem
    rw [h2] at this
    exact this

theorem step_aligned {tbl : Table} (hw : wellFormedTable tbl = true) (s : String)
    {c : PyDict × PyDict × PyDict} {a : OvSpecAcc} (h : OvInv c a) :
    OvInv (getOverrideStep tbl c s) (overrideStepWith pyUpdate a (tblGet tbl s)) := by
  rw [getOverrideStep_eq]
  cases ht : tblGet tbl s with
  | none =>
    show OvInv ([], [], []) ⟨[], [], []⟩
    exact ⟨fun k => rfl, rfl, rfl, rfl, rfl, rfl⟩
  | some spec =>
    rw [overrideStepWith_update_eq]
    have hwf := wf_tblGet hw ht
    unfold wfSpec at hwf
    simp only [Bool.and_eq_true] at hwf
    exact codeSpecApply_aligned spec c a hwf.1.1.1 h

theorem fold_aligned {tbl : Table} (hw : wellFormedTable tbl = true)
    (subs : List String) :
    ∀ (c : PyDict × PyDict × PyDict) (a : OvSpecAcc), OvInv c a →
      OvInv (subs.foldl (getOverrideStep tbl) c)
        (subs.foldl (fun x s => overrideStepWith pyUpdate x (tblGet tbl s)) a) := by
  induction subs with
  | nil => intro c a h; exact h
  | cons s ss ih =>
    intro c a h
    rw [List.foldl_cons, List.foldl_cons]
    exact ih _ _ (step_aligned hw s h)

theorem finish_aligned {c : PyDict × PyDict × PyDict} {a : OvSpecAcc}
    (h : OvInv c a) : dictEquiv (getOverrideFinish c) (overrideFinishSpec a) := by
  intro k
  simp only [getOverrideFinish]
  set d1 := if c.2.1.length > 0 then pySet c.1 (J.str "extra_tags") (J.dict c.2.1) else c.1
    with hd1
  set d2 := if c.2.2.length > 0 then pySet d1 (J.str "value_replacement") (J.dict c.2.2) else d1
    with hd2
  have hnd1 : pyNodup d1 = true := by
    rw [hd1]
    by_cases h1 : c.2.1.length > 0
    · rw [if_pos h1]; exact pyNodup_pySet _ _ h.nd
    · rw [if_neg h1]; exact h.nd
  have hnd2 : pyNodup d2 = true := by
    rw [hd2]
    by_cases h2 : c.2.2.length > 0
    · rw [if_pos h2]; exact pyNodup_pySet _ _ hnd1
    · rw [if_neg h2]; exact hnd1
  rw [pyGet?_filter_nonNull k hnd2]
  simp only [overrideFinishSpec, pyGet?_append]
  by_cases hek : pyEq (J.str "extra_tags") k = true
  · have hvk : pyEq (J.str "value_replacement") k = false := by
      by_contra hc
      simp only [Bool.not_eq_false] at hc
      have := pyEq_trans hek ((pyEq_symm (J.str "value_replacement") k) ▸ hc)
      rw [pyEq_str_iff] at this
      simp at this
    have hc1k : pyGet? c.1 k = none := by
      refine pyGet?_eq_none_of_not_contains ?_
      rw [← pyContains_congr hek c.1]
      exact h.net
    have hsck : pyGet? a.scalars k = none := by
      rw [← h.sc k, hc1k]
      rfl
    have hld2 : pyGet? d2 k = pyGet? d1 k := by
      rw [hd2]
      by_cases h2 : c.2.2.length > 0
      · rw [if_pos h2]; exact pyGet?_pySet_ne _ _ hvk
      · rw [if_neg h2]
    rw [hld2, hsck]
    by_cases h1 : c.2.1.length > 0
    · have hld1 : pyGet? d1 k = some (J.dict c.2.1) := by
        rw [hd1, if_pos h1]
        exact pyGet?_pySet_eq _ _ hek
      have hne : a.extraTags.isEmpty = false := by
        rw [← h.het]
        cases hc : c.2.1 with
        | nil => rw [hc] at h1; simp at h1
        | cons x xs => rfl
      rw [hld1, hne]
      simp only [Bool.false_eq_true, ite_false]
      rw [show pyGet? [(J.str "extra_tags", J.dict a.extraTags)] k =
        some (J.dict a.extraTags) from by rw [pyGet?_cons, if_pos hek]]
      simp [Option.orElse, h.het]
      rfl
    · have hld1 : pyGet? d1 k = none := by
        rw [hd1, if_neg h1, hc1k]
      have hemp : a.extraTags.isEmpty = true := by
        rw [← h.het]
        cases hc : c.2.1 with
        | nil => rfl
        | cons x xs => rw [hc] at h1; simp at h1
      rw [hld1, hemp]
      simp only [ite_true]
      have hvnone : (if a.valueRepl.isEmpty = true then ([] : PyDict)
          else [(J.str "value_replacement", J.dict a.valueRepl)]).find?
            (fun p => pyEq p.1 k) = none := by
        by_cases hv : a.valueRepl.isEmpty = true
        · rw [if_pos hv]; rfl
        · rw [if_neg hv]
          simp [List.find?, hvk]
      simp [pyGet?, hvnone, Option.orElse]
      rfl
  · rw [Bool.not_eq_true] at hek
    by_cases hvk : pyEq (J.str "value_replacement") k = true
    · have hc1k : pyGet? c.1 k = none := by
        refine pyGet?_eq_none_of_not_contains ?_
        rw [← pyContains_congr hvk c.1]
        exact h.nvr
      have hsck : pyGet? a.scalars k = none := by
        rw [← h.sc k, hc1k]
        rfl
      have hld1 : pyGet? d1 k = pyGet? c.1 k := by
        rw [hd1]
        by_cases h1 : c.2.1.length > 0
        · rw [if_pos h1]; exact pyGet?_pySet_ne _ _ hek
        · rw [if_neg h1]
      have hetnone : pyGet? (if a.extraTags.isEmpty = true then ([] : PyDict)
          else [(J.str "extra_tags", J.dict a.extraTags)]) k = none := by
        by_cases hv : a.extraTags.isEmpty = true
        · rw [if_pos hv]; rfl
        · rw [if_neg hv, pyGet?_cons, if_neg (by simp [hek])]
          rfl
      rw [hsck]
      by_cases h2 : c.2.2.length > 0
      · have hld2 : pyGet? d2 k = some (J.dict c.2.2) := by
          rw [hd2, if_pos h2]
          exact pyGet?_pySet_eq _ _ hvk
        have hne : a.valueRepl.isEmpty = false := by
          rw [← h.hvr]
          cases hc : c.2.2 with
          | nil => rw [hc] at h2; simp at h2
          | cons x xs => rfl
        rw [hld2, hne]
        simp only [Bool.false_eq_true, ite_false]
        rw [hetnone]
        rw [show pyGet? [(J.str "value_replacement", J.dict a.valueRepl)] k =
          some (J.dict a.valueRepl) from by rw [pyGet?_cons, if_pos hvk]]
        simp [Option.orElse, h.hvr]
        rfl
      · have hld2 : pyGet? d2 k = none := by
          rw [hd2, if_neg h2, hld1, hc1k]
        have hemp : a.valueRepl.isEmpty = true := by
          rw [← h.hvr]
          cases hc : c.2.2 with
          | nil => rfl
          | cons x xs => rw [hc] at h2; simp at h2
        rw [hld2, hemp, hetnone]
        simp [Option.orElse]
        rfl
    · rw [Bool.not_eq_true] at hvk
      have hld1 : pyGet? d1 k = pyGet? c.1 k := by
        rw [hd1]
        by_cases h1 : c.2.1.length > 0
        · rw [if_pos h1]; exact pyGet?_pySet_ne _ _ hek
        · rw [if_neg h1]
      have hld2 : pyGet? d2 k = pyGet? c.1 k := by
        rw [hd2]
        by_cases h2 : c.2.2.length > 0
        · rw [if_pos h2, pyGet?_pySet_ne _ _ hvk]
          exact hld1
        · rw [if_neg h2]
          exact hld1
      have hetnone : pyGet? (if a.extraTags.isEmpty = true then ([] : PyDict)
          else [(J.str "extra_tags", J.dict a.extraTags)]) k = none := by
        by_cases hv : a.extraTags.isEmpty = true
        · rw [if_pos hv]; rfl
        · rw [if_neg hv, pyGet?_cons, if_neg (by simp [hek])]
          rfl
      have hvrnone : pyGet? (if a.valueRepl.isEmpty = true then ([] : PyDict)
          else [(J.str "value_replacement", J.dict a.valueRepl)]) k = none := by
        by_cases hv : a.valueRepl.isEmpty = true
        · rw [if_pos hv]; rfl
        · rw [if_neg hv, pyGet?_cons, if_neg (by simp [hvk])]
          rfl
      rw [hld2, ← h.sc k]
      simp only [hetnone, hvrnone]
      cases hx : stripNull (pyGet? c.1 k) <;> simp [Option.orElse]

/-- Counterexample to C1 as stated: the claim says a null at an
individual `extra_tags` key deletes that key (leaving the sub-map empty
and hence omitted), but the code stores the null via `dict.update` and
only reinstates the nonempty sub-map, so the resolved override keeps
`extra_tags` with the null inside. -/
theorem c1_counterexample :
    getOverrideBase tblNullKey "a" =
      [(J.str "extra_tags", J.dict [(J.str "t", J.null)])] ∧
    resolveOverrideClaim tblNullKey "a" = [] ∧
    pyGet? (getOverrideBase tblNullKey "a") (J.str "extra_tags") ≠
      pyGet? (resolveOverrideClaim tblNullKey "a") (J.str "extra_tags") := by
  refine ⟨by rfl, by rfl, ?_⟩
  intro hcontra
  rw [show pyGet? (getOverrideBase tblNullKey "a") (J.str "extra_tags") =
      some (J.dict [(J.str "t", J.null)]) from by rfl] at hcontra
  rw [show pyGet? (resolveOverrideClaim tblNullKey "a") (J.str "extra_tags") =
      none from by rfl] at hcontra
  exact Option.some_ne_none _ hcontra

/-- C1 (amended): for every well-formed override table and base topic,
the code's resolved override equals — as a mapping — the claimed left
fold over the patterns matching the topic in ascending specificity
order, amended in one point: a null at an individual sub-map key does
not delete the key but overwrites the accumulated entry with null (and
such a sub-map counts as nonempty). -/
theorem c1_amended_override_fold (tbl : Table) (topic : String)
    (hw : wellFormedTable tbl = true) :
    dictEquiv (getOverrideBase tbl topic) (resolveOverrideAmended tbl topic) := by
  show dictEquiv
    (getOverrideFinish ((sort_subs_by_specificity topic (tbl.map Prod.fst)).foldl
      (getOverrideStep tbl) ([], [], [])))
    (overrideFinishSpec ((rankedBySpecificity topic (tbl.map Prod.fst)).foldl
      (fun a s => overrideStepWith pyUpdate a (tblGet tbl s)) ⟨[], [], []⟩))
  rw [sort_subs_eq_ranked]
  exact finish_aligned (fold_aligned hw _ ([], [], []) ⟨[], [], []⟩
    ⟨fun k => rfl, rfl, rfl, rfl, rfl, rfl⟩)

/-- Witness for C1's amended theorem at the concrete table
`{"a": {"extra_tags": {"t": null}}}`. -/
theorem c1_amended_override_fold_witness :
    wellFormedTable tblNullKey = true ∧
    dictEquiv (getOverrideBase tblNullKey "a") (resolveOverrideAmended tblNullKey "a") :=
  ⟨by rfl, c1_amended_override_fold tblNullKey "a" (by rfl)⟩

/-- Python numbers: bool is a subclass of int, non-finite values are
floats. -/
def isNumJ : J → Bool
  | .bool _ | .int _ | .flt _ | .nonfinite => true
  | _ => false

/-- Whether the resolved override's `extra_tags` sub-map supplies a tag
at key `k` (null-valued entries are filtered out before the merge at
src/main.py:722). -/
def etHas (ov : PyDict) (k : String) : Bool :=
  match pyGet? ov (J.str "extra_tags") with
  | some (J.dict d) => pyContains (d.filter (fun p => !(isNull p.2))) (J.str k)
  | _ => false

/-- Whether the resolved override supplies a tag at key `k`: a non-null
scalar at the key itself, or an `extra_tags` entry. -/
def ovSupplies (ov : PyDict) (k : String) : Bool :=
  !(stripNull (pyGet? ov (J.str k))).isNone || etHas ov k

theorem pyEq_str_beq (s t : String) : pyEq (J.str s) (J.str t) = (s == t) := by
  by_cases h : s = t
  · subst h
    rw [pyEq_str_self]
    simp
  · rw [show pyEq (J.str s) (J.str t) = false from by
      by_contra hc
      simp only [Bool.not_eq_false] at hc
      exact h ((pyEq_str_iff s t).mp hc)]
    simp [h]

theorem pyContains_append (a b : PyDict) (k : J) :
    pyContains (a ++ b) k = (pyContains a k || pyContains b k) := by
  simp [pyContains, List.any_append]

theorem pyContains_pyPop_ne {k0 k : J} (d : PyDict) (dflt : J)
    (h : pyEq k0 k = false) :
    pyContains (pyPop d k0 dflt).2 k = pyContains d k := by
  induction d with
  | nil => rfl
  | cons p ps ih =>
    by_cases hp : pyEq p.1 k0 = true
    · have hp' : pyEq p.1 k = false := by
        by_contra hc
        simp only [Bool.not_eq_false] at hc
        rw [pyEq_trans ((pyEq_symm k0 p.1) ▸ hp) hc] at h
        cases h
      simp [pyPop, hp, pyContains_cons, hp']
    · simp [pyPop, hp, pyContains_cons, ih]

theorem pyGet?_pyPop_ne {k0 k : J} (d : PyDict) (dflt : J)
    (h : pyEq k0 k = false) :
    pyGet? (pyPop d k0 dflt).2 k = pyGet? d k := by
  induction d with
  | nil => rfl
  | cons p ps ih =>
    by_cases hp : pyEq p.1 k0 = true
    · have hp' : pyEq p.1 k = false := by
        by_contra hc
        simp only [Bool.not_eq_false] at hc
        rw [pyEq_trans ((pyEq_symm k0 p.1) ▸ hp) hc] at h
        cases h
      simp [pyPop, hp, pyGet?_cons, hp']
    · simp only [pyPop, hp, Bool.false_eq_true, if_false, ite_false]
      rw [pyGet?_cons, pyGet?_cons, ih]

theorem pyContains_tsFix_ts (d : PyDict) (t : ℚ) :
    pyContains (tsFix d t) (J.str "timestamp") = true := by
  unfold tsFix
  cases hg : pyGet? d (J.str "timestamp") with
  | none =>
    rw [pyContains_pySet]
    simp [pyEq_str_self]
  | some v =>
    cases v <;>
      first
        | (rw [pyContains_pySet]; simp [pyEq_str_self])
        | exact pyContains_of_get_some hg

theorem pyContains_tsFix_ne (d : PyDict) (t : ℚ) {k : J}
    (h : pyEq (J.str "timestamp") k = false) :
    pyContains (tsFix d t) k = pyContains d k := by
  unfold tsFix
  cases hg : pyGet? d (J.str "timestamp") with
  | none =>
    rw [pyContains_pySet, h]
    simp
  | some v =>
    cases v <;>
      first
        | (rw [pyContains_pySet, h]; simp)
        | rfl

theorem pyFloat?_num {s : String} {f : J} (h : pyFloat? s = some f) :
    isNumJ f = true := by
  unfold pyFloat? at h
  simp only [] at h
  split at h
  · injection h with h'
    subst h'
    rfl
  · split at h
    · injection h with h'
      subst h'
      rfl
    · cases h

theorem normalize_timestamp_num (v : J) :
    isNumJ (normalize_timestamp v) = true ∨ normalize_timestamp v = J.null := by
  cases v with
  | str s =>
    unfold normalize_timestamp
    cases hi : pyInt? s with
    | some n =>
      simp only [hi]
      left
      rfl
    | none =>
      cases hf : pyFloat? s with
      | some f =>
        simp only [hi, hf]
        left
        exact pyFloat?_num hf
      | none => simp [hi, hf]
  | null => right; rfl
  | bool b => left; rfl
  | int n => left; rfl
  | flt q => left; rfl
  | nonfinite => left; rfl
  | dict d => right; rfl
  | arr l => right; rfl

theorem extract_context_tags_no_key (o : Option J) (k : String)
    (hk : ∀ s : String, ("context_" ++ s) ≠ k) :
    pyContains (extract_context_tags o) (J.str k) = false := by
  match o with
  | none => rfl
  | some (J.str s) =>
    show pyContains (if s.toList.contains '/' then
        (splitSlash s).enum.map (fun p => (J.str ("context_" ++ toString p.1), J.str p.2))
      else [(J.str "context_0", J.str s)]) (J.str k) = false
    by_cases hs : s.toList.contains '/'
    · rw [if_pos hs]
      rw [show pyContains ((splitSlash s).enum.map
          (fun p => (J.str ("context_" ++ toString p.1), J.str p.2))) (J.str k) =
          ((splitSlash s).enum.map
            (fun p => (J.str ("context_" ++ toString p.1), J.str p.2))).any
            (fun p => pyEq p.1 (J.str k)) from rfl]
      rw [List.any_eq_false]
      intro p hp
      rw [List.mem_map] at hp
      obtain ⟨q, _, hq⟩ := hp
      rw [← hq]
      intro hc
      have hc' : pyEq (J.str ("context_" ++ toString q.1)) (J.str k) = true := hc
      exact hk (toString q.1) ((pyEq_str_iff _ _).mp hc')
    · rw [if_neg hs]
      rw [pyContains_cons]
      have h0 : pyEq (J.str "context_0") (J.str k) = false := by
        rw [pyEq_str_beq]
        simp only [beq_eq_false_iff_ne, ne_eq]
        exact hk "0"
      rw [show (J.str "context_0", J.str s).1 = J.str "context_0" from rfl, h0]
      rfl
  | some J.null => rfl
  | some (J.bool b) => rfl
  | some (J.int n) => rfl
  | some (J.flt q) => rfl
  | some J.nonfinite => rfl
  | some (J.dict d) => rfl
  | some (J.arr l) => rfl

/-- The per-key entry of `generate_tags` when the structural match
failed. -/
def genEntry (override_dict : PyDict) (key : String) : Option (J × J) :=
  match pyGet? override_dict (J.str key) with
  | some J.null => none
  | some v => some (J.str key, v)
  | none => none

theorem generate_tags_none_eq (keys : List String) (ov : PyDict) :
    generate_tags keys ov none = keys.filterMap (genEntry ov) := rfl

theorem genEntry_none_iff (ov : PyDict) (key : String) :
    genEntry ov key = none ↔ (stripNull (pyGet? ov (J.str key))).isNone = true := by
  unfold genEntry
  cases hg : pyGet? ov (J.str key) with
  | none => simp [stripNull]
  | some v => cases v <;> simp [stripNull]

theorem genEntry_some (ov : PyDict) (key : String) {p : J × J}
    (h : genEntry ov key = some p) :
    p.1 = J.str key ∧ (stripNull (pyGet? ov (J.str key))).isNone = false := by
  unfold genEntry at h
  cases hg : pyGet? ov (J.str key) with
  | none => rw [hg] at h; cases h
  | some v =>
    rw [hg] at h
    cases v <;> first
      | (injection h with h'; subst h'; exact ⟨rfl, rfl⟩)
      | injection h

theorem contains_filterMap_gen (ov : PyDict) (keys : List String) (k : String) :
    pyContains (keys.filterMap (genEntry ov)) (J.str k) =
      keys.any (fun k' => k' == k && !(stripNull (pyGet? ov (J.str k'))).isNone) := by
  induction keys with
  | nil => rfl
  | cons a l ih =>
    rw [List.filterMap_cons, List.any_cons]
    cases hg : genEntry ov a with
    | none =>
      rw [ih]
      have := (genEntry_none_iff ov a).mp hg
      simp [this]
    | some p =>
      obtain ⟨hp1, hp2⟩ := genEntry_some ov a hg
      rw [pyContains_cons, ih, hp1, pyEq_str_beq, hp2]
      simp

theorem contains_generate_mem (ov : PyDict) (tm : Option TopicGroups) (k : String)
    (hk : k ∈ (["app", "context", "thing"] : List String)) :
    pyContains (generate_tags ["app", "context", "thing"] ov tm) (J.str k) =
      (tm.isSome || !(stripNull (pyGet? ov (J.str k))).isNone) := by
  cases tm with
  | some m =>
    simp only [Option.isSome, Bool.true_or]
    unfold generate_tags
    simp only [List.map_cons, List.map_nil]
    rw [pyContains_cons, pyContains_cons, pyContains_cons]
    rcases List.mem_cons.mp hk with rfl | hk'
    · rw [show pyEq (J.str "app") (J.str "app") = true from pyEq_str_self "app"]
      rfl
    rcases List.mem_cons.mp hk' with rfl | hk''
    · rw [show pyEq (J.str "context") (J.str "context") = true from pyEq_str_self "context"]
      simp
    rcases List.mem_cons.mp hk'' with rfl | hk'''
    · rw [show pyEq (J.str "thing") (J.str "thing") = true from pyEq_str_self "thing"]
      simp
    · simp at hk'''
  | none =>
    rw [generate_tags_none_eq, contains_filterMap_gen]
    simp only [Option.isSome_none, Bool.false_or]
    rcases List.mem_cons.mp hk with rfl | hk'
    · simp [List.any_cons]
    rcases List.mem_cons.mp hk' with rfl | hk''
    · simp [List.any_cons]
    rcases List.mem_cons.mp hk'' with rfl | hk'''
    · simp [List.any_cons]
    · simp at hk'''

theorem contains_generate_other (ov : PyDict) (tm : Option TopicGroups) (k : String)
    (h1 : ("app" == k) = false) (h2 : ("context" == k) = false)
    (h3 : ("thing" == k) = false) :
    pyContains (generate_tags ["app", "context", "thing"] ov tm) (J.str k) = false := by
  cases tm with
  | some m =>
    unfold generate_tags
    simp only [List.map_cons, List.map_nil]
    rw [pyContains_cons, pyContains_cons, pyContains_cons]
    rw [show pyEq (J.str "app") (J.str k) = false from (pyEq_str_beq _ _).trans h1]
    rw [show pyEq (J.str "context") (J.str k) = false from (pyEq_str_beq _ _).trans h2]
    rw [show pyEq (J.str "thing") (J.str k) = false from (pyEq_str_beq _ _).trans h3]
    rfl
  | none =>
    rw [generate_tags_none_eq, contains_filterMap_gen]
    simp [List.any_cons, h1, h2, h3]

/-- The tag dict `extract_tags` returns when it does not raise, as a
function of the computed property tag. -/
def tagsOf (topic : TKey) (topic_override : PyDict) (property_tag : String) : PyDict :=
  let rawTopic := match topic with | .base t => t | .sub t _ => t
  let topic_meta := topicMeta rawTopic
  let generated_tags := generate_tags ["app", "context", "thing"] topic_override topic_meta
  let ctxArg : Option J :=
    match pyGet? topic_override (J.str "context") with
    | some J.null => none
    | some v => some v
    | none => match topic_meta with | some m => some (J.str m.context) | none => none
  let tags : PyDict :=
    [(J.str "topic",
       J.str (match topic with | .base t => t | .sub t v => t ++ ":" ++ v)),
     (J.str "property", pyGetD topic_override (J.str "property") (J.str property_tag))]
    ++ generated_tags ++ extract_context_tags ctxArg
  let tags :=
    match pyGet? topic_override (J.str "extra_tags") with
    | some (J.dict d) => pyUpdate tags (d.filter (fun p => !(isNull p.2)))
    | _ => tags
  match pyGet? topic_override (J.str "metric_prefix") with
  | some v => pySet tags (J.str "metric_prefix") v
  | none => tags

theorem extract_tags_shape {topic : TKey} {ov : PyDict} {T : PyDict}
    (h : extract_tags topic ov = some T) : ∃ pt, T = tagsOf topic ov pt := by
  unfold extract_tags at h
  simp only [] at h
  split at h
  · cases h
  · injection h with h'
    exact ⟨_, h'.symm⟩

theorem ctx_ne_app (s : String) : ("context_" ++ s) ≠ "app" := by
  intro h
  have := congrArg String.data h
  rw [String.data_append] at this
  simp at this

theorem ctx_ne_context (s : String) : ("context_" ++ s) ≠ "context" := by
  intro h
  have := congrArg String.data h
  rw [String.data_append] at this
  simp at this

theorem ctx_ne_thing (s : String) : ("context_" ++ s) ≠ "thing" := by
  intro h
  have := congrArg String.data h
  rw [String.data_append] at this
  simp at this

theorem ctx_ne_timestamp (s : String) : ("context_" ++ s) ≠ "timestamp" := by
  intro h
  have := congrArg String.data h
  rw [String.data_append] at this
  simp at this

theorem contains_tagsOf_mem (topic : TKey) (ov : PyDict) (pt : String) (k : String)
    (hk : k ∈ (["app", "context", "thing"] : List String)) :
    pyContains (tagsOf topic ov pt) (J.str k) =
      ((topicMeta (match topic with | .base t => t | .sub t _ => t)).isSome ||
        ovSupplies ov k) := by
  have hmp : ("metric_prefix" == k) = false := by
    rcases List.mem_cons.mp hk with rfl | hk'
    · rfl
    rcases List.mem_cons.mp hk' with rfl | hk''
    · rfl
    rcases List.mem_cons.mp hk'' with rfl | hk'''
    · rfl
    · simp at hk'''
  have htp : pyEq (J.str "topic") (J.str k) = false := by
    rw [pyEq_str_beq]
    rcases List.mem_cons.mp hk with rfl | hk'
    · rfl
    rcases List.mem_cons.mp hk' with rfl | hk''
    · rfl
    rcases List.mem_cons.mp hk'' with rfl | hk'''
    · rfl
    · simp at hk'''
  have hpr : pyEq (J.str "property") (J.str k) = false := by
    rw [pyEq_str_beq]
    rcases List.mem_cons.mp hk with rfl | hk'
    · rfl
    rcases List.mem_cons.mp hk' with rfl | hk''
    · rfl
    rcases List.mem_cons.mp hk'' with rfl | hk'''
    · rfl
    · simp at hk'''
  have hcx : ∀ s : String, ("context_" ++ s) ≠ k := by
    rcases List.mem_cons.mp hk with rfl | hk'
    · exact ctx_ne_app
    rcases List.mem_cons.mp hk' with rfl | hk''
    · exact ctx_ne_context
    rcases List.mem_cons.mp hk'' with rfl | hk'''
    · exact ctx_ne_thing
    · simp at hk'''
  simp only [tagsOf]
  have hbase : ∀ (X Y : J) (G C : PyDict),
      pyContains ([(J.str "topic", X), (J.str "property", Y)] ++ G ++ C) (J.str k) =
        (pyContains G (J.str k) || pyContains C (J.str k)) := by
    intro X Y G C
    rw [pyContains_append, pyContains_append, pyContains_cons, pyContains_cons]
    rw [show (J.str "topic", X).1 = J.str "topic" from rfl,
      show (J.str "property", Y).1 = J.str "property" from rfl, htp, hpr]
    simp [pyContains]
  cases hmpv : pyGet? ov (J.str "metric_prefix") with
  | some v =>
    rw [pyContains_pySet]
    rw [show pyEq (J.str "metric_prefix") (J.str k) = false from
      (pyEq_str_beq _ _).trans hmp]
    simp only [Bool.or_false]
    cases hetv : pyGet? ov (J.str "extra_tags") with
    | some w =>
      cases w <;>
        simp only [pyContains_pyUpdate, hbase,
          contains_generate_mem ov _ k hk,
          extract_context_tags_no_key _ k hcx, Bool.or_false, ovSupplies, etHas, hetv] <;>
        (first
          | rfl
          | rw [Bool.or_assoc])
    | none =>
      simp only [hbase, contains_generate_mem ov _ k hk,
        extract_context_tags_no_key _ k hcx, Bool.or_false, ovSupplies, etHas, hetv]
  | none =>
    cases hetv : pyGet? ov (J.str "extra_tags") with
    | some w =>
      cases w <;>
        simp only [pyContains_pyUpdate, hbase,
          contains_generate_mem ov _ k hk,
          extract_context_tags_no_key _ k hcx, Bool.or_false, ovSupplies, etHas, hetv] <;>
        (first
          | rfl
          | rw [Bool.or_assoc])
    | none =>
      simp only [hbase, contains_generate_mem ov _ k hk,
        extract_context_tags_no_key _ k hcx, Bool.or_false, ovSupplies, etHas, hetv]

theorem contains_tagsOf_ts (topic : TKey) (ov : PyDict) (pt : String) :
    pyContains (tagsOf topic ov pt) (J.str "timestamp") = etHas ov "timestamp" := by
  have hbase : ∀ (X Y : J) (G C : PyDict),
      pyContains ([(J.str "topic", X), (J.str "property", Y)] ++ G ++ C)
          (J.str "timestamp") =
        (pyContains G (J.str "timestamp") || pyContains C (J.str "timestamp")) := by
    intro X Y G C
    rw [pyContains_append, pyContains_append, pyContains_cons, pyContains_cons]
    rw [show (J.str "topic", X).1 = J.str "topic" from rfl,
      show (J.str "property", Y).1 = J.str "property" from rfl]
    rw [show pyEq (J.str "topic") (J.str "timestamp") = false from rfl,
      show pyEq (J.str "property") (J.str "timestamp") = false from rfl]
    simp [pyContains]
  have hgen : ∀ tm, pyContains (generate_tags ["app", "context", "thing"] ov tm)
      (J.str "timestamp") = false := fun tm =>
    contains_generate_other ov tm "timestamp" rfl rfl rfl
  have hctx : ∀ o, pyContains (extract_context_tags o) (J.str "timestamp") = false :=
    fun o => extract_context_tags_no_key o "timestamp" ctx_ne_timestamp
  simp only [tagsOf]
  cases hmpv : pyGet? ov (J.str "metric_prefix") with
  | some v =>
    rw [pyContains_pySet]
    rw [show pyEq (J.str "metric_prefix") (J.str "timestamp") = false from rfl]
    simp only [Bool.or_false]
    cases hetv : pyGet? ov (J.str "extra_tags") with
    | some w =>
      cases w <;>
        simp only [pyContains_pyUpdate, hbase, hgen, hctx, Bool.or_false, Bool.false_or,
          etHas, hetv]
    | none => simp only [hbase, hgen, hctx, Bool.or_false, etHas, hetv]
  | none =>
    cases hetv : pyGet? ov (J.str "extra_tags") with
    | some w =>
      cases w <;>
        simp only [pyContains_pyUpdate, hbase, hgen, hctx, Bool.or_false, Bool.false_or,
          etHas, hetv]
    | none => simp only [hbase, hgen, hctx, Bool.or_false, etHas, hetv]

theorem contains_tagsOf_topic (topic : TKey) (ov : PyDict) (pt : String) :
    pyContains (tagsOf topic ov pt) (J.str "topic") = true := by
  have hbase : ∀ (X Y : J) (G C : PyDict),
      pyContains ([(J.str "topic", X), (J.str "property", Y)] ++ G ++ C)
          (J.str "topic") = true := by
    intro X Y G C
    rw [pyContains_append, pyContains_append, pyContains_cons]
    rw [show (J.str "topic", X).1 = J.str "topic" from rfl]
    rw [pyEq_str_self]
    simp
  simp only [tagsOf]
  cases hmpv : pyGet? ov (J.str "metric_prefix") with
  | some v =>
    rw [pyContains_pySet]
    cases hetv : pyGet? ov (J.str "extra_tags") with
    | some w => cases w <;> simp only [pyContains_pyUpdate, hbase, Bool.true_or]
    | none => simp only [hbase, Bool.true_or]
  | none =>
    cases hetv : pyGet? ov (J.str "extra_tags") with
    | some w => cases w <;> simp only [pyContains_pyUpdate, hbase, Bool.true_or]
    | none => simp only [hbase]

theorem contains_tagsOf_property (topic : TKey) (ov : PyDict) (pt : String) :
    pyContains (tagsOf topic ov pt) (J.str "property") = true := by
  have hbase : ∀ (X Y : J) (G C : PyDict),
      pyContains ([(J.str "topic", X), (J.str "property", Y)] ++ G ++ C)
          (J.str "property") = true := by
    intro X Y G C
    rw [pyContains_append, pyContains_append, pyContains_cons, pyContains_cons]
    rw [show (J.str "topic", X).1 = J.str "topic" from rfl,
      show (J.str "property", Y).1 = J.str "property" from rfl]
    rw [show pyEq (J.str "topic") (J.str "property") = false from rfl, pyEq_str_self]
    simp
  simp only [tagsOf]
  cases hmpv : pyGet? ov (J.str "metric_prefix") with
  | some v =>
    rw [pyContains_pySet]
    cases hetv : pyGet? ov (J.str "extra_tags") with
    | some w => cases w <;> simp only [pyContains_pyUpdate, hbase, Bool.true_or]
    | none => simp only [hbase, Bool.true_or]
  | none =>
    cases hetv : pyGet? ov (J.str "extra_tags") with
    | some w => cases w <;> simp only [pyContains_pyUpdate, hbase, Bool.true_or]
    | none => simp only [hbase]

/-- The per-entry function building payload tags in
`extract_payload_tags_and_value`. -/
def payloadEntry (tags_exclude : List String) (p : J × J) : Option (J × J) :=
  match p.1 with
  | J.str k =>
    if isStrIntFloat p.2 then
      if tags_exclude.contains (lowerStr k) then none
      else if k == "timestamp" then some (J.str k, normalize_timestamp p.2)
      else some (J.str k, J.str (pyStr p.2))
    else none
  | _ => none

theorem payloadEntry_ts {excl : List String} {p : J × J} {q : J × J}
    (h : payloadEntry excl p = some q) (ht : pyEq q.1 (J.str "timestamp") = true) :
    ∃ w, q.2 = normalize_timestamp w := by
  unfold payloadEntry at h
  split at h
  · split at h
    · split at h
      · cases h
      · split at h
        · injection h with h'
          exact ⟨p.2, by rw [← h']⟩
        · injection h with h'
          rename_i hts
          rw [← h'] at ht
          rename_i k heq2 hnum hexcl
          rw [show (J.str k, J.str (pyStr p.2)).1 = J.str k from rfl] at ht
          rw [pyEq_str_beq] at ht
          exact absurd ht hts
    · cases h
  · cases h

theorem pyGet?_payload_ts (excl : List String) (l : List (J × J)) :
    ∀ v, pyGet? (l.filterMap (payloadEntry excl)) (J.str "timestamp") = some v →
      ∃ w, v = normalize_timestamp w := by
  induction l with
  | nil =>
    intro v h
    cases h
  | cons p rest ih =>
    intro v h
    rw [List.filterMap_cons] at h
    cases hpe : payloadEntry excl p with
    | none =>
      rw [hpe] at h
      exact ih v h
    | some q =>
      rw [hpe] at h
      rw [pyGet?_cons] at h
      by_cases ht : pyEq q.1 (J.str "timestamp") = true
      · rw [if_pos ht] at h
        injection h with h'
        obtain ⟨w, hw⟩ := payloadEntry_ts hpe ht
        exact ⟨w, by rw [← h', hw]⟩
      · rw [if_neg ht] at h
        exact ih v h

theorem payload_ts_num (payload : J) (excl : List String) (ov : PyDict) (L : ℕ) {v : J}
    (h : pyGet? (extract_payload_tags_and_value payload excl ov L).1
      (J.str "timestamp") = some v) :
    isNumJ v = true ∨ v = J.null := by
  cases payload with
  | dict kvs =>
    have h' : pyGet? (((pyPop kvs (J.str "value") (J.int (-1))).2).filterMap
        (payloadEntry excl)) (J.str "timestamp") = some v := h
    obtain ⟨w, hw⟩ := pyGet?_payload_ts excl _ v h'
    rw [hw]
    exact normalize_timestamp_num w
  | null => exact Option.noConfusion h
  | bool b => exact Option.noConfusion h
  | int n => exact Option.noConfusion h
  | flt q => exact Option.noConfusion h
  | nonfinite => exact Option.noConfusion h
  | str s => exact Option.noConfusion h
  | arr l => exact Option.noConfusion h

/-- The raw topic string of a resolution key. -/
def rawOf : TKey → String
  | .base t => t
  | .sub t _ => t

theorem contains_tagsOf_mem2 (topic : TKey) (ov : PyDict) (pt : String) (k : String)
    (hk : k ∈ (["app", "context", "thing"] : List String)) :
    pyContains (tagsOf topic ov pt) (J.str k) =
      ((topicMeta (rawOf topic)).isSome || ovSupplies ov k) := by
  cases topic with
  | base t => exact contains_tagsOf_mem (.base t) ov pt k hk
  | sub t v => exact contains_tagsOf_mem (.sub t v) ov pt k hk

theorem extract_tags_and_value_invariants (vt : TKey) (payload : J) (ts : ℚ)
    (ov : PyDict) (excl : List String) (L : ℕ) {tags : PyDict} {value : J}
    (h : extract_tags_and_value vt payload ts ov excl L = some (tags, value)) :
    pyContains tags (J.str "topic") = true ∧
    pyContains tags (J.str "property") = true ∧
    pyContains tags (J.str "timestamp") = true ∧
    (∀ k, k ∈ (["app", "context", "thing"] : List String) →
      pyContains tags (J.str k) =
        ((topicMeta (rawOf vt)).isSome ||
          ovSupplies ov k ||
          pyContains (extract_payload_tags_and_value payload excl ov L).1 (J.str k))) ∧
    (etHas ov "timestamp" = false →
      ∃ v, pyGet? tags (J.str "timestamp") = some v ∧ isNumJ v = true) := by
  unfold extract_tags_and_value at h
  simp only [] at h
  split at h
  · cases h
  · rename_i T hT
    injection h with hX
    obtain ⟨pt, hTof⟩ := extract_tags_shape hT
    have htags : tags = tsFix (pyUpdate
        (extract_payload_tags_and_value payload excl ov L).1 T) ts :=
      (congrArg Prod.fst hX).symm
    rw [hTof] at htags
    subst htags
    refine ⟨?_, ?_, pyContains_tsFix_ts _ _, ?_, ?_⟩
    · rw [pyContains_tsFix_ne _ _ (show pyEq (J.str "timestamp") (J.str "topic") = false
        from rfl)]
      rw [pyContains_pyUpdate, contains_tagsOf_topic]
      simp
    · rw [pyContains_tsFix_ne _ _ (show pyEq (J.str "timestamp") (J.str "property") = false
        from rfl)]
      rw [pyContains_pyUpdate, contains_tagsOf_property]
      simp
    · intro k hk
      have hne : pyEq (J.str "timestamp") (J.str k) = false := by
        rw [pyEq_str_beq]
        rcases List.mem_cons.mp hk with rfl | hk'
        · rfl
        rcases List.mem_cons.mp hk' with rfl | hk''
        · rfl
        rcases List.mem_cons.mp hk'' with rfl | hk'''
        · rfl
        · simp at hk'''
      rw [pyContains_tsFix_ne _ _ hne, pyContains_pyUpdate,
        contains_tagsOf_mem2 vt ov pt k hk]
      cases hp : pyContains (extract_payload_tags_and_value payload excl ov L).1
          (J.str k) <;>
        cases hm : (topicMeta (rawOf vt)).isSome <;>
        cases ho : ovSupplies ov k <;> rfl
    · intro hets
      have hTts : pyContains (tagsOf vt ov pt) (J.str "timestamp") = false :=
        (contains_tagsOf_ts vt ov pt).trans hets
      have hPU : pyGet? (pyUpdate (extract_payload_tags_and_value payload excl ov L).1
          (tagsOf vt ov pt)) (J.str "timestamp") =
          pyGet? (extract_payload_tags_and_value payload excl ov L).1
            (J.str "timestamp") :=
        pyGet?_pyUpdate_of_not_mem _ hTts
      cases hx : pyGet? (pyUpdate (extract_payload_tags_and_value payload excl ov L).1
          (tagsOf vt ov pt)) (J.str "timestamp") with
      | none =>
        refine ⟨J.int (ratTrunc ts), ?_, rfl⟩
        simp only [tsFix, hx]
        exact pyGet?_pySet_eq _ _ (pyEq_str_self "timestamp")
      | some v =>
        have hPv : pyGet? (extract_payload_tags_and_value payload excl ov L).1
            (J.str "timestamp") = some v := hPU.symm.trans hx
        cases v with
        | null =>
          refine ⟨J.int (ratTrunc ts), ?_, rfl⟩
          simp only [tsFix, hx]
          exact pyGet?_pySet_eq _ _ (pyEq_str_self "timestamp")
        | bool b =>
          refine ⟨J.bool b, ?_, rfl⟩
          simp only [tsFix, hx]
        | int n =>
          refine ⟨J.int n, ?_, rfl⟩
          simp only [tsFix, hx]
        | flt q =>
          refine ⟨J.flt q, ?_, rfl⟩
          simp only [tsFix, hx]
        | nonfinite =>
          refine ⟨J.nonfinite, ?_, rfl⟩
          simp only [tsFix, hx]
        | str s =>
          rcases payload_ts_num payload excl ov L hPv with hn | hn
          · cases hn
          · cases hn
        | dict d =>
          rcases payload_ts_num payload excl ov L hPv with hn | hn
          · cases hn
          · cases hn
        | arr l =>
          rcases payload_ts_num payload excl ov L hPv with hn | hn
          · cases hn
          · cases hn

/-- The override dict a fragment is processed against (src/main.py
lines 398-407): sub-value fragments re-resolve, base fragments reuse the
precomputed base override. -/
def ovOf (tbl : Table) (topic_override : PyDict) : TKey → PyDict
  | .sub t v => (get_topic_override_config (.sub t v) tbl).1
  | .base _ => topic_override

theorem reading_tags_invariants {vt : TKey} {ov : PyDict} {payload : J} {ts : ℚ}
    {excl : List String} {L : ℕ} {tags : PyDict} {value : J}
    (hev : extract_tags_and_value vt payload ts ov excl L = some (tags, value))
    {rd : Reading} (mpfx : String)
    (hrd : rd.tags = (pyPop tags (J.str "metric_prefix") (J.str mpfx)).2 ∨
      ∃ s, rd.tags = pySet (pyPop tags (J.str "metric_prefix") (J.str mpfx)).2
        (J.str "val") (J.str s)) :
    pyContains rd.tags (J.str "topic") = true ∧
    pyContains rd.tags (J.str "property") = true ∧
    pyContains rd.tags (J.str "timestamp") = true ∧
    (∀ k, k ∈ (["app", "context", "thing"] : List String) →
      pyContains rd.tags (J.str k) =
        ((topicMeta (rawOf vt)).isSome ||
          ovSupplies ov k ||
          pyContains (extract_payload_tags_and_value payload excl ov L).1 (J.str k))) ∧
    (etHas ov "timestamp" = false →
      ∃ v, pyGet? rd.tags (J.str "timestamp") = some v ∧ isNumJ v = true) := by
  obtain ⟨h1, h2, h3, h4, h5⟩ :=
    extract_tags_and_value_invariants vt payload ts ov excl L hev
  have tcontains : ∀ K : J, pyEq (J.str "metric_prefix") K = false →
      pyEq (J.str "val") K = false →
      pyContains rd.tags K = pyContains tags K := by
    intro K hmp hval
    rcases hrd with hrd | ⟨s, hrd⟩ <;> rw [hrd]
    · exact pyContains_pyPop_ne _ _ hmp
    · rw [pyContains_pySet, pyContains_pyPop_ne _ _ hmp, hval]
      simp
  have tget : pyGet? rd.tags (J.str "timestamp") = pyGet? tags (J.str "timestamp") := by
    rcases hrd with hrd | ⟨s, hrd⟩ <;> rw [hrd]
    · exact pyGet?_pyPop_ne _ _ (by rfl)
    · rw [pyGet?_pySet_ne _ _ (by rfl), pyGet?_pyPop_ne _ _ (by rfl)]
  refine ⟨?_, ?_, ?_, ?_, ?_⟩
  · rw [tcontains _ (by rfl) (by rfl)]
    exact h1
  · rw [tcontains _ (by rfl) (by rfl)]
    exact h2
  · rw [tcontains _ (by rfl) (by rfl)]
    exact h3
  · intro k hk
    have hmp : pyEq (J.str "metric_prefix") (J.str k) = false := by
      rw [pyEq_str_beq]
      rcases List.mem_cons.mp hk with rfl | hk'
      · rfl
      rcases List.mem_cons.mp hk' with rfl | hk''
      · rfl
      rcases List.mem_cons.mp hk'' with rfl | hk'''
      · rfl
      · simp at hk'''
    have hval : pyEq (J.str "val") (J.str k) = false := by
      rw [pyEq_str_beq]
      rcases List.mem_cons.mp hk with rfl | hk'
      · rfl
      rcases List.mem_cons.mp hk' with rfl | hk''
      · rfl
      rcases List.mem_cons.mp hk'' with rfl | hk'''
      · rfl
      · simp at hk'''
    rw [tcontains _ hmp hval]
    exact h4 k hk
  · intro hets
    obtain ⟨v, hv, hn⟩ := h5 hets
    exact ⟨v, tget.trans hv, hn⟩

theorem c9_step (OV : PyDict) (TB : Table) {vt : TKey} {payload : J} {ts : ℚ}
    {mpfx : String} {L : ℕ} {excl : List String} {rd : Reading} {tbl2 : Table}
    (h : ((match extract_tags_and_value vt payload ts OV excl L with
           | none => (none, TB)
           | some (tags, value) =>
             let pm := pyPop tags (J.str "metric_prefix") (J.str mpfx)
             let lpfx := pyStr pm.1
             let tags := pm.2
             match value with
             | .int _ | .flt _ | .bool _ | .nonfinite =>
               (some ⟨lpfx ++ pyStr (pyGetD tags (J.str "property") J.null), value, tags⟩,
                TB)
             | .str s =>
               if pyContains tags (J.str "val") then (none, TB)
               else
                 (some ⟨lpfx ++ pyStr (pyGetD tags (J.str "property") J.null) ++ "_info",
                   J.int 1, pySet tags (J.str "val") (J.str s)⟩, TB)
             | _ => (none, TB)) : Option Reading × Table) = (some rd, tbl2)) :
    pyContains rd.tags (J.str "topic") = true ∧
    pyContains rd.tags (J.str "property") = true ∧
    pyContains rd.tags (J.str "timestamp") = true ∧
    (∀ k, k ∈ (["app", "context", "thing"] : List String) →
      pyContains rd.tags (J.str k) =
        ((topicMeta (rawOf vt)).isSome ||
          ovSupplies OV k ||
          pyContains (extract_payload_tags_and_value payload excl OV L).1 (J.str k))) ∧
    (etHas OV "timestamp" = false →
      ∃ v, pyGet? rd.tags (J.str "timestamp") = some v ∧ isNumJ v = true) := by
  cases hev : extract_tags_and_value vt payload ts OV excl L with
  | none =>
    rw [hev] at h
    exact Option.noConfusion (show (none : Option Reading) = some rd from
      congrArg Prod.fst h)
  | some pr =>
    obtain ⟨tags, value⟩ := pr
    rw [hev] at h
    cases value with
    | int n =>
      have hr : some (Reading.mk (pyStr (pyPop tags (J.str "metric_prefix")
          (J.str mpfx)).1 ++ pyStr (pyGetD (pyPop tags (J.str "metric_prefix")
            (J.str mpfx)).2 (J.str "property") J.null)) (J.int n)
          (pyPop tags (J.str "metric_prefix") (J.str mpfx)).2) = some rd :=
        congrArg Prod.fst h
      injection hr with hr'
      exact reading_tags_invariants hev mpfx (Or.inl (congrArg Reading.tags hr'.symm))
    | flt q =>
      have hr : some (Reading.mk (pyStr (pyPop tags (J.str "metric_prefix")
          (J.str mpfx)).1 ++ pyStr (pyGetD (pyPop tags (J.str "metric_prefix")
            (J.str mpfx)).2 (J.str "property") J.null)) (J.flt q)
          (pyPop tags (J.str "metric_prefix") (J.str mpfx)).2) = some rd :=
        congrArg Prod.fst h
      injection hr with hr'
      exact reading_tags_invariants hev mpfx (Or.inl (congrArg Reading.tags hr'.symm))
    | bool b =>
      have hr : some (Reading.mk (pyStr (pyPop tags (J.str "metric_prefix")
          (J.str mpfx)).1 ++ pyStr (pyGetD (pyPop tags (J.str "metric_prefix")
            (J.str mpfx)).2 (J.str "property") J.null)) (J.bool b)
          (pyPop tags (J.str "metric_prefix") (J.str mpfx)).2) = some rd :=
        congrArg Prod.fst h
      injection hr with hr'
      exact reading_tags_invariants hev mpfx (Or.inl (congrArg Reading.tags hr'.symm))
    | nonfinite =>
      have hr : some (Reading.mk (pyStr (pyPop tags (J.str "metric_prefix")
          (J.str mpfx)).1 ++ pyStr (pyGetD (pyPop tags (J.str "metric_prefix")
            (J.str mpfx)).2 (J.str "property") J.null)) J.nonfinite
          (pyPop tags (J.str "metric_prefix") (J.str mpfx)).2) = some rd :=
        congrArg Prod.fst h
      injection hr with hr'
      exact reading_tags_invariants hev mpfx (Or.inl (congrArg Reading.tags hr'.symm))
    | str s =>
      have h2 : ((if pyContains (pyPop tags (J.str "metric_prefix") (J.str mpfx)).2
            (J.str "val") = true then ((none : Option Reading), TB)
          else (some ⟨pyStr (pyPop tags (J.str "metric_prefix") (J.str mpfx)).1 ++
              pyStr (pyGetD (pyPop tags (J.str "metric_prefix") (J.str mpfx)).2
                (J.str "property") J.null) ++ "_info",
            J.int 1, pySet (pyPop tags (J.str "metric_prefix") (J.str mpfx)).2
              (J.str "val") (J.str s)⟩, TB)) : Option Reading × Table) =
          (some rd, tbl2) := h
      by_cases hc : pyContains (pyPop tags (J.str "metric_prefix") (J.str mpfx)).2
          (J.str "val") = true
      · rw [if_pos hc] at h2
        exact Option.noConfusion (show (none : Option Reading) = some rd from
          congrArg Prod.fst h2)
      · rw [if_neg hc] at h2
        have hr : some (Reading.mk (pyStr (pyPop tags (J.str "metric_prefix")
            (J.str mpfx)).1 ++ pyStr (pyGetD (pyPop tags (J.str "metric_prefix")
              (J.str mpfx)).2 (J.str "property") J.null) ++ "_info") (J.int 1)
            (pySet (pyPop tags (J.str "metric_prefix") (J.str mpfx)).2
              (J.str "val") (J.str s))) = some rd :=
          congrArg Prod.fst h2
        injection hr with hr'
        exact reading_tags_invariants hev mpfx
          (Or.inr ⟨s, congrArg Reading.tags hr'.symm⟩)
    | null =>
      exact Option.noConfusion (show (none : Option Reading) = some rd from
        congrArg Prod.fst h)
    | dict d =>
      exact Option.noConfusion (show (none : Option Reading) = some rd from
        congrArg Prod.fst h)
    | arr l =>
      exact Option.noConfusion (show (none : Option Reading) = some rd from
        congrArg Prod.fst h)

/-- C9 (amended): every emitted Reading's tag set contains `topic`,
`property` and a `timestamp`; the keys `app`/`context`/`thing` are
present iff supplied by the structural topic-pattern match, by the
resolved override (a non-null scalar or an `extra_tags` entry), or — the
amendment — by a payload tag of the same name; and provided the
override's `extra_tags` does not itself inject a `timestamp` (the second
amendment), the timestamp tag is numeric: payload-supplied and parseable,
otherwise the truncated integer arrival time. -/
theorem c9_amended_tag_invariants (tbl : Table) (topic_override : PyDict)
    (vt : TKey) (payload : J) (ts : ℚ) (mpfx : String) (L : ℕ)
    (excl : List String) (rd : Reading) (tbl2 : Table)
    (h : processFragment tbl topic_override vt payload ts mpfx L excl =
      (some rd, tbl2)) :
    pyContains rd.tags (J.str "topic") = true ∧
    pyContains rd.tags (J.str "property") = true ∧
    pyContains rd.tags (J.str "timestamp") = true ∧
    (∀ k, k ∈ (["app", "context", "thing"] : List String) →
      pyContains rd.tags (J.str k) =
        ((topicMeta (rawOf vt)).isSome ||
          ovSupplies (ovOf tbl topic_override vt) k ||
          pyContains (extract_payload_tags_and_value payload excl
            (ovOf tbl topic_override vt) L).1 (J.str k))) ∧
    (etHas (ovOf tbl topic_override vt) "timestamp" = false →
      ∃ v, pyGet? rd.tags (J.str "timestamp") = some v ∧ isNumJ v = true) := by
  cases vt with
  | base t =>
    exact c9_step topic_override tbl h
  | sub t v =>
    exact c9_step (get_topic_override_config (.sub t v) tbl).1
      (get_topic_override_config (.sub t v) tbl).2 h

/-- Counterexample to C9 as stated: on a topic that does not match the
structural pattern and with an empty override, a payload entry `"app"`
still becomes an `app` tag of the emitted Reading, so presence of
`app`/`context`/`thing` is not equivalent to "supplied by the structural
match or by the override". -/
theorem c9_counterexample :
    (processFragment [] [] (.base "a/b")
        (J.dict [(J.str "value", J.int 1), (J.str "app", J.str "x")]) 0 "m" 128
        ["metric_prefix"]).1 =
      some ⟨"m" ++ "b", J.int 1,
        [(J.str "app", J.str "x"), (J.str "topic", J.str "a/b"),
         (J.str "property", J.str "b"), (J.str "timestamp", J.int 0)]⟩ ∧
    pyContains [(J.str "app", J.str "x"), (J.str "topic", J.str "a/b"),
      (J.str "property", J.str "b"), (J.str "timestamp", J.int 0)] (J.str "app") = true ∧
    topicMeta "a/b" = none ∧
    ovSupplies [] "app" = false :=
  ⟨by rfl, by rfl, by rfl, by rfl⟩

/-- Witness for C9's amended theorem on the scenario message. -/
theorem c9_amended_tag_invariants_witness :
    pyContains (Reading.tags ⟨"m" ++ "temperature", J.int 25,
      [(J.str "topic", J.str "dt/myapp/room/esp32/temperature"),
       (J.str "property", J.str "temperature"),
       (J.str "app", J.str "myapp"), (J.str "context", J.str "room"),
       (J.str "thing", J.str "esp32"), (J.str "context_0", J.str "room"),
       (J.str "timestamp", J.int 0)]⟩) (J.str "topic") = true ∧
    pyContains (Reading.tags ⟨"m" ++ "temperature", J.int 25,
      [(J.str "topic", J.str "dt/myapp/room/esp32/temperature"),
       (J.str "property", J.str "temperature"),
       (J.str "app", J.str "myapp"), (J.str "context", J.str "room"),
       (J.str "thing", J.str "esp32"), (J.str "context_0", J.str "room"),
       (J.str "timestamp", J.int 0)]⟩) (J.str "app") =
      ((topicMeta (rawOf (.base "dt/myapp/room/esp32/temperature"))).isSome ||
        ovSupplies (ovOf [] [] (.base "dt/myapp/room/esp32/temperature")) "app" ||
        pyContains (extract_payload_tags_and_value
          (J.dict [(J.str "value", J.int 25)]) ["metric_prefix"]
          (ovOf [] [] (.base "dt/myapp/room/esp32/temperature")) 128).1 (J.str "app")) ∧
    (∃ v, pyGet? (Reading.tags ⟨"m" ++ "temperature", J.int 25,
      [(J.str "topic", J.str "dt/myapp/room/esp32/temperature"),
       (J.str "property", J.str "temperature"),
       (J.str "app", J.str "myapp"), (J.str "context", J.str "room"),
       (J.str "thing", J.str "esp32"), (J.str "context_0", J.str "room"),
       (J.str "timestamp", J.int 0)]⟩) (J.str "timestamp") = some v ∧
      isNumJ v = true) := by
  have hmain := c9_amended_tag_invariants [] [] (.base "dt/myapp/room/esp32/temperature")
    (J.dict [(J.str "value", J.int 25)]) 0 "m" 128 ["metric_prefix"]
    ⟨"m" ++ "temperature", J.int 25,
      [(J.str "topic", J.str "dt/myapp/room/esp32/temperature"),
       (J.str "property", J.str "temperature"),
       (J.str "app", J.str "myapp"), (J.str "context", J.str "room"),
       (J.str "thing", J.str "esp32"), (J.str "context_0", J.str "room"),
       (J.str "timestamp", J.int 0)]⟩ [] (by rfl)
  exact ⟨hmain.1, hmain.2.2.2.1 "app" (by simp), hmain.2.2.2.2 (by rfl)⟩
